import Mathlib

/-!
Verification of the vertical-alignment core of the formate CSS/LESS/SCSS
formatter (src/src/extension.ts).  Lines are modelled as `List Char` and a
document as a `List (List Char)` (the result of `css.split('\n')`).  Every
definition below is a direct translation of the corresponding TypeScript
function; JavaScript's `-1` sentinels are kept as `Int` results, and the
mutable scan state of `verticalAlign`'s `forEach` loop becomes the explicit
record `VAState` threaded through `vaStep`.
-/

/-- JavaScript whitespace (the class `\s`, also used by `String.trim`):
space, tab, newline, carriage return, vertical tab, form feed, and the
Unicode space separators recognised by ECMAScript. -/
def isJsWhitespace (c : Char) : Bool :=
  c = ' ' || c = '\t' || c = '\n' || c = '\r' || c = '\u000b' || c = '\u000c' ||
  c = '\u00a0' || c = '\u1680' ||
  ('\u2000' ≤ c && c ≤ '\u200a') ||
  c = '\u2028' || c = '\u2029' || c = '\u202f' || c = '\u205f' ||
  c = '\u3000' || c = '\ufeff'

/-- ECMAScript line terminators (the characters the regex `.` does not
match). -/
def isLineTerminator (c : Char) : Bool :=
  c = '\n' || c = '\r' || c = '\u2028' || c = '\u2029'

/-- `startsWithList l p` holds when `p` is an initial segment of `l`
(JavaScript `String.prototype.startsWith`). -/
def startsWithList : List Char → List Char → Bool
  | _, [] => true
  | [], _ :: _ => false
  | c :: l, p :: ps => c = p && startsWithList l ps

/-- `containsSub p l` holds when `p` occurs as a contiguous substring of
`l` (JavaScript `line.indexOf(p) >= 0`). -/
def containsSub (p : List Char) : List Char → Bool
  | [] => p.isEmpty
  | c :: l => startsWithList (c :: l) p || containsSub p l

/-- Zero-based index of the first occurrence of `c`, `-1` when absent
(JavaScript `String.prototype.indexOf` on a single character). -/
def jsIndexOf (c : Char) : List Char → Int
  | [] => -1
  | d :: l =>
    if d = c then 0
    else
      let r := jsIndexOf c l
      if r = -1 then -1 else r + 1

/-- Remove leading JavaScript whitespace. -/
def ltrim (l : List Char) : List Char := l.dropWhile isJsWhitespace

/-- Remove trailing JavaScript whitespace. -/
def rtrim (l : List Char) : List Char :=
  (l.reverse.dropWhile isJsWhitespace).reverse

/-- JavaScript `String.prototype.trim`: drop whitespace from both ends. -/
def jsTrim (l : List Char) : List Char := rtrim (ltrim l)

/-- `' '.repeat(n)`. -/
def spacesList (n : Nat) : List Char := List.replicate n ' '

/-- JavaScript `line.replace(':', ins)`: replace the first `':'` (if any)
by the string `ins`, leaving everything else untouched. -/
def replaceFirstColon : List Char → List Char → List Char
  | [], _ => []
  | c :: l, ins => if c = ':' then ins ++ l else c :: replaceFirstColon l ins

/-- Decides whether a suffix `t` (the text standing after a candidate
colon) completes a match of the property regex
`(([A-z]-*)*\s*:\s*).*;?[^,|{]$`: the final character must exist and not
be `,`, `|` or `{`, and the text before it must be whitespace followed by
non-line-terminator characters (the `\s*.*;?` part; `;?` is absorbed by
`.*`, and the nullable prefix groups impose no constraint because the
regex is unanchored). -/
def propSuffixOk (t : List Char) : Bool :=
  match t.getLast? with
  | none => false
  | some c =>
    !(c = ',' || c = '|' || c = '{') &&
    (t.dropLast.dropWhile isJsWhitespace).all (fun d => !isLineTerminator d)

/-- `isProperty` from extension.ts: the regex test
`/(([A-z]-*)*\s*:\s*).*;?[^,|{]$/.test(line)`, which succeeds exactly when
some `':'` in the line is followed by a suffix accepted by
`propSuffixOk`. -/
def isProperty : List Char → Bool
  | [] => false
  | c :: l => (c = ':' && propSuffixOk l) || isProperty l

/-- `insertExtraSpaces` from extension.ts: pad the first colon either
before (`alignColon = true`) or after (`alignColon = false`). -/
def insertExtraSpaces (cssLine : List Char) (numberOfSpaces : Nat)
    (alignColon : Bool) : List Char :=
  if alignColon then replaceFirstColon cssLine (spacesList numberOfSpaces ++ [':'])
  else replaceFirstColon cssLine (':' :: spacesList numberOfSpaces)

/-- `isLineCommentLine` from extension.ts: the trimmed line starts with
`//`. -/
def isLineCommentLine (line : List Char) : Bool :=
  startsWithList (jsTrim line) ['/', '/']

/-- The literal `// formate-ignore`. -/
def ignoreMarker : List Char :=
  ['/', '/', ' ', 'f', 'o', 'r', 'm', 'a', 't', 'e', '-', 'i', 'g', 'n', 'o', 'r', 'e']

/-- `isLineIgnoreLine` from extension.ts: the trimmed line starts with
`// formate-ignore`. -/
def isLineIgnoreLine (line : List Char) : Bool :=
  startsWithList (jsTrim line) ignoreMarker

/-- `findIndexOfFurthestColon` from extension.ts: `0` for the empty list,
otherwise `Math.max` of the `indexOf(':')` values of the raw lines. -/
def findIndexOfFurthestColon (properties : List (List Char)) : Int :=
  match properties with
  | [] => 0
  | p :: ps => ps.foldl (fun acc q => max acc (jsIndexOf ':' q)) (jsIndexOf ':' p)

/-- One pass of the body of the group-formatting `while` loop of
`verticalAlign` (lines 147-156 of extension.ts): a line whose colon index
is below `furthest` and which is not a comment line is padded up to
`furthest`. -/
def alignLine (furthest : Int) (alignColon : Bool) (l : List Char) : List Char :=
  let colonIndex := jsIndexOf ':' l
  if colonIndex < furthest && !isLineCommentLine l then
    insertExtraSpaces l (furthest - colonIndex).toNat alignColon
  else l

/-- Helper applying `alignLine` to the positions `f ≤ i ≤ l`, the current
position being `i0`. -/
def formatGroupFrom (f l : Nat) (furthest : Int) (alignColon : Bool) :
    Nat → List (List Char) → List (List Char)
  | _, [] => []
  | i0, x :: xs =>
    (if f ≤ i0 && i0 ≤ l then alignLine furthest alignColon x else x) ::
      formatGroupFrom f l furthest alignColon (i0 + 1) xs

/-- The `while (firstProperty <= lastProperty)` loop of `verticalAlign`:
rewrite the lines with indices in `[f, l]` (both inclusive). -/
def formatGroup (lines : List (List Char)) (f l : Nat) (furthest : Int)
    (alignColon : Bool) : List (List Char) :=
  formatGroupFrom f l furthest alignColon 0 lines

/-- The mutable state of `verticalAlign`'s `forEach` loop.  JavaScript's
`-1` sentinels for `firstProperty` / `lastProperty` become `none`. -/
structure VAState where
  lines : List (List Char)
  firstProperty : Option Nat
  lastProperty : Option Nat
  commentBlockEntered : Bool
  ignoreNextLine : Bool
  deriving Repr, DecidableEq

/-- The body of the `forEach` callback of `verticalAlign` for line index
`i` (lines 105-161 of extension.ts), in the source's check order:
ignored line, ignore marker, comment line, `*/`, `/*` or open block
comment, then property classification, group-boundary bookkeeping, and
the group-formatting block. -/
def vaStep (total additionalSpaces : Nat) (alignColon : Bool)
    (s : VAState) (i : Nat) : VAState :=
  let line := jsTrim (s.lines.getD i [])
  if s.ignoreNextLine then { s with ignoreNextLine := false }
  else if isLineIgnoreLine line then { s with ignoreNextLine := true }
  else if isLineCommentLine line then s
  else if containsSub ['*', '/'] line then { s with commentBlockEntered := false }
  else if startsWithList line ['/', '*'] || s.commentBlockEntered then
    { s with commentBlockEntered := true }
  else
    let first1 :=
      if isProperty line && s.firstProperty.isNone then some i else s.firstProperty
    let last1 :=
      if (!isProperty line && first1.isSome) || total - 1 = i then some i
      else s.lastProperty
    match first1, last1 with
    | some f, some l =>
      let properyGroup := (s.lines.drop f).take (l - f)
      let furthest := findIndexOfFurthestColon properyGroup + (additionalSpaces : Int)
      { lines := formatGroup s.lines f l furthest alignColon,
        firstProperty := none, lastProperty := none,
        commentBlockEntered := s.commentBlockEntered,
        ignoreNextLine := s.ignoreNextLine }
    | f1, l1 =>
      { s with firstProperty := f1, lastProperty := l1 }

/-- Run `vaStep` on the indices `i, i+1, ..., i+count-1`. -/
def vaRun (total additionalSpaces : Nat) (alignColon : Bool) :
    Nat → Nat → VAState → VAState
  | _, 0, s => s
  | i, count + 1, s =>
    vaRun total additionalSpaces alignColon (i + 1) count
      (vaStep total additionalSpaces alignColon s i)

/-- `verticalAlign` from extension.ts, working on the already split line
array: iterate the `forEach` body over all indices starting from the
initial state. -/
def verticalAlignLines (cssLines : List (List Char)) (additionalSpaces : Nat)
    (alignColon : Bool) : List (List Char) :=
  (vaRun cssLines.length additionalSpaces alignColon 0 cssLines.length
    { lines := cssLines, firstProperty := none, lastProperty := none,
      commentBlockEntered := false, ignoreNextLine := false }).lines

/-- JavaScript `css.split('\n')`. -/
def splitNewline : List Char → List (List Char)
  | [] => [[]]
  | c :: rest =>
    if c = '\n' then [] :: splitNewline rest
    else
      match splitNewline rest with
      | [] => [[c]]
      | l :: ls => (c :: l) :: ls

/-- JavaScript `cssLines.join('\n')`. -/
def joinNewline : List (List Char) → List Char
  | [] => []
  | [l] => l
  | l :: l' :: ls => l ++ '\n' :: joinNewline (l' :: ls)

/-- `verticalAlign` from extension.ts on the whole document string:
split on newlines, run the scan, and rejoin. -/
def verticalAlign (css : List Char) (additionalSpaces : Nat)
    (alignColon : Bool) : List Char :=
  joinNewline (verticalAlignLines (splitNewline css) additionalSpaces alignColon)

/-- The five classification values that `vaStep` reads off a line: ignore
marker, line comment, contains `*/`, starts a block comment, is a
property declaration (all computed on the trimmed line, exactly as the
`forEach` body does). -/
def classif (l : List Char) : Bool × Bool × Bool × Bool × Bool :=
  (isLineIgnoreLine (jsTrim l), isLineCommentLine (jsTrim l),
   containsSub ['*', '/'] (jsTrim l), startsWithList (jsTrim l) ['/', '*'],
   isProperty (jsTrim l))

/-- Threshold below which the scan can no longer modify lines: the open
group's start, or the current index when no group is open. -/
def vaThresh (s : VAState) (i : Nat) : Nat :=
  match s.firstProperty with
  | none => i
  | some f => f

/-- A line that the scanner treats as a plain property declaration: its
trimmed form is a property, it is not a comment (hence not an ignore
marker), contains no `*/`, and does not open a block comment. -/
def plainPropertyLine (l : List Char) : Bool :=
  isProperty (jsTrim l) && !isLineCommentLine l &&
  !containsSub ['*', '/'] (jsTrim l) && !startsWithList (jsTrim l) ['/', '*']

/-! ## Basic lemmas about the string primitives -/

theorem startsWithList_nil_pat (l : List Char) : startsWithList l [] = true := by
  cases l <;> rfl

theorem startsWithList_append_split (l p q : List Char) :
    startsWithList l (p ++ q) = true → startsWithList l p = true := by
  induction p generalizing l with
  | nil => intro _; exact startsWithList_nil_pat l
  | cons c cs ih =>
    intro h
    cases l with
    | nil => simp [startsWithList] at h
    | cons d ds =>
      simp only [List.cons_append, startsWithList, Bool.and_eq_true] at h ⊢
      exact ⟨h.1, ih ds h.2⟩

theorem ignore_implies_comment (l : List Char) :
    isLineIgnoreLine l = true → isLineCommentLine l = true := by
  intro h
  have : ignoreMarker = ['/', '/'] ++ [' ', 'f', 'o', 'r', 'm', 'a', 't', 'e', '-', 'i', 'g', 'n', 'o', 'r', 'e'] := rfl
  unfold isLineIgnoreLine at h
  rw [this] at h
  exact startsWithList_append_split _ _ _ h

theorem replaceFirstColon_of_not_mem (l ins : List Char) (h : ':' ∉ l) :
    replaceFirstColon l ins = l := by
  induction l with
  | nil => rfl
  | cons c cs ih =>
    simp only [List.mem_cons, not_or] at h
    have hc : ¬ c = ':' := fun hc => h.1 hc.symm
    simp [replaceFirstColon, hc, ih h.2]

theorem replaceFirstColon_append (a b ins : List Char) (h : ':' ∉ a) :
    replaceFirstColon (a ++ ':' :: b) ins = a ++ ins ++ b := by
  induction a with
  | nil => simp [replaceFirstColon]
  | cons c cs ih =>
    simp only [List.mem_cons, not_or] at h
    have hc : ¬ c = ':' := fun hc => h.1 hc.symm
    simp [replaceFirstColon, hc, ih h.2]

theorem replaceFirstColon_colon_ident (l : List Char) :
    replaceFirstColon l [':'] = l := by
  induction l with
  | nil => rfl
  | cons c cs ih =>
    by_cases hc : c = ':'
    · subst hc; simp [replaceFirstColon]
    · simp [replaceFirstColon, hc, ih]

theorem insertExtraSpaces_zero (l : List Char) (b : Bool) :
    insertExtraSpaces l 0 b = l := by
  cases b <;> simp [insertExtraSpaces, spacesList, replaceFirstColon_colon_ident]

theorem insertExtraSpaces_of_no_colon (l : List Char) (n : Nat) (b : Bool)
    (h : ':' ∉ l) : insertExtraSpaces l n b = l := by
  cases b <;> simp [insertExtraSpaces, replaceFirstColon_of_not_mem _ _ h]

theorem insertExtraSpaces_before (a b : List Char) (n : Nat) (h : ':' ∉ a) :
    insertExtraSpaces (a ++ ':' :: b) n true = a ++ spacesList n ++ ':' :: b := by
  simp [insertExtraSpaces, replaceFirstColon_append _ _ _ h, List.append_assoc]

theorem insertExtraSpaces_after (a b : List Char) (n : Nat) (h : ':' ∉ a) :
    insertExtraSpaces (a ++ ':' :: b) n false = a ++ ':' :: (spacesList n ++ b) := by
  simp [insertExtraSpaces, replaceFirstColon_append _ _ _ h]

theorem jsIndexOf_neg_of_not_mem (c : Char) (l : List Char) (h : c ∉ l) :
    jsIndexOf c l = -1 := by
  induction l with
  | nil => rfl
  | cons d ds ih =>
    simp only [List.mem_cons, not_or] at h
    have hd : ¬ d = c := fun hd => h.1 hd.symm
    simp [jsIndexOf, hd, ih h.2]

theorem jsIndexOf_ge_neg_one (c : Char) (l : List Char) :
    -1 ≤ jsIndexOf c l := by
  induction l with
  | nil => simp [jsIndexOf]
  | cons d ds ih =>
    simp only [jsIndexOf]
    by_cases hd : d = c
    · simp [hd]
    · simp only [hd, if_false]
      by_cases hz : jsIndexOf c ds = -1
      · simp [hz]
      · simp only [hz, if_false]; omega

theorem jsIndexOf_append (c : Char) (a b : List Char) (h : c ∉ a) :
    jsIndexOf c (a ++ c :: b) = (a.length : Int) := by
  induction a with
  | nil => simp [jsIndexOf]
  | cons d ds ih =>
    simp only [List.mem_cons, not_or] at h
    have hr := ih h.2
    have hd : ¬ d = c := fun hd => h.1 hd.symm
    have hne : ¬ ((ds.length : Int) = -1) := by omega
    simp only [List.cons_append, jsIndexOf, hd, if_false, List.append_eq, hr, hne,
      List.length_cons]
    push_cast
    ring

theorem jsIndexOf_split (c : Char) (l : List Char) (h : 0 ≤ jsIndexOf c l) :
    ∃ a b, l = a ++ c :: b ∧ c ∉ a ∧ jsIndexOf c l = (a.length : Int) := by
  induction l with
  | nil => simp [jsIndexOf] at h
  | cons d ds ih =>
    by_cases hd : d = c
    · exact ⟨[], ds, by simp [hd], by simp, by simp [jsIndexOf, hd]⟩
    · simp only [jsIndexOf, hd, if_false] at h ⊢
      by_cases hz : jsIndexOf c ds = -1
      · simp [hz] at h
      · have h0 : 0 ≤ jsIndexOf c ds := by
          have := jsIndexOf_ge_neg_one c ds; omega
        obtain ⟨a, b, rfl, hma, hia⟩ := ih h0
        refine ⟨d :: a, b, rfl, ?_, by simp [hz, hia]⟩
        simp only [List.mem_cons, not_or]
        exact ⟨fun hcd => hd hcd.symm, hma⟩

/-! ## Lemmas about the property classifier -/

theorem isProperty_append_no_colon (u v : List Char) (h : ':' ∉ u) :
    isProperty (u ++ v) = isProperty v := by
  induction u with
  | nil => rfl
  | cons c cs ih =>
    simp only [List.mem_cons, not_or] at h
    have hc : ¬ c = ':' := fun hc => h.1 hc.symm
    simp [isProperty, hc, ih h.2]

theorem propSuffixOk_bad_last (t : List Char) (c : Char)
    (hl : t.getLast? = some c) (hc : c = ',' ∨ c = '|' ∨ c = '{') :
    propSuffixOk t = false := by
  simp only [propSuffixOk, hl]
  rcases hc with h1 | h1 | h1 <;> simp [h1]

theorem isProperty_getLast (l : List Char) (c : Char)
    (hl : l.getLast? = some c) (hc : c = ',' ∨ c = '|' ∨ c = '{') :
    isProperty l = false := by
  induction l with
  | nil => rfl
  | cons d ds ih =>
    cases ds with
    | nil =>
      simp only [List.getLast?_singleton, Option.some.injEq] at hl
      simp [isProperty, propSuffixOk]
    | cons e es =>
      have hlast : (e :: es).getLast? = some c := by
        rw [List.getLast?_cons_cons] at hl; exact hl
      have hrec := ih hlast
      have hsuf := propSuffixOk_bad_last (e :: es) c hlast hc
      rw [isProperty, hrec, hsuf]
      simp

theorem isProperty_colon_shape (b : List Char)
    (hok : propSuffixOk b = true) : isProperty (':' :: b) = true := by
  simp [isProperty, hok]

/-! ## Lemmas about the furthest-colon computation -/

theorem foldl_max_ge_init (f : List Char → Int) (ls : List (List Char)) (a : Int) :
    a ≤ ls.foldl (fun acc q => max acc (f q)) a := by
  induction ls generalizing a with
  | nil => simp
  | cons x xs ih => exact le_trans (le_max_left a (f x)) (ih (max a (f x)))

theorem foldl_max_ge_mem (f : List Char → Int) (ls : List (List Char)) (a : Int)
    (l : List Char) (hl : l ∈ ls) :
    f l ≤ ls.foldl (fun acc q => max acc (f q)) a := by
  induction ls generalizing a with
  | nil => simp at hl
  | cons x xs ih =>
    rcases List.mem_cons.mp hl with h | h
    · subst h
      exact le_trans (le_max_right a (f l)) (foldl_max_ge_init f xs _)
    · exact ih _ h

theorem foldl_max_attained (f : List Char → Int) (ls : List (List Char)) (a : Int) :
    ls.foldl (fun acc q => max acc (f q)) a = a ∨
      ∃ l ∈ ls, ls.foldl (fun acc q => max acc (f q)) a = f l := by
  induction ls generalizing a with
  | nil => left; rfl
  | cons x xs ih =>
    rcases ih (max a (f x)) with h | ⟨l, hl, he⟩
    · simp only [List.foldl_cons, h]
      rcases max_choice a (f x) with h1 | h1
      · left; exact h1
      · right; exact ⟨x, List.mem_cons_self x xs, h1⟩
    · right; exact ⟨l, List.mem_cons_of_mem x hl, he⟩

theorem findIndexOfFurthestColon_ge (ls : List (List Char)) (l : List Char)
    (hl : l ∈ ls) : jsIndexOf ':' l ≤ findIndexOfFurthestColon ls := by
  cases ls with
  | nil => simp at hl
  | cons x xs =>
    rcases List.mem_cons.mp hl with h | h
    · subst h; exact foldl_max_ge_init _ xs _
    · exact foldl_max_ge_mem _ xs _ l h

theorem findIndexOfFurthestColon_attained (ls : List (List Char)) (h : ls ≠ []) :
    ∃ l ∈ ls, findIndexOfFurthestColon ls = jsIndexOf ':' l := by
  cases ls with
  | nil => exact absurd rfl h
  | cons x xs =>
    rcases foldl_max_attained (jsIndexOf ':') xs (jsIndexOf ':' x) with h1 | ⟨l, hl, he⟩
    · exact ⟨x, List.mem_cons_self x xs, h1⟩
    · exact ⟨l, List.mem_cons_of_mem x hl, he⟩

theorem findIndexOfFurthestColon_le (ls : List (List Char)) (m : Int)
    (hne : ls ≠ []) (hall : ∀ l ∈ ls, jsIndexOf ':' l ≤ m) :
    findIndexOfFurthestColon ls ≤ m := by
  obtain ⟨l, hl, he⟩ := findIndexOfFurthestColon_attained ls hne
  rw [he]; exact hall l hl

/-! ## Lemmas about trimming -/

theorem dropWhile_append_of_all (p : Char → Bool) (w x : List Char)
    (h : ∀ c ∈ w, p c = true) : (w ++ x).dropWhile p = x.dropWhile p := by
  induction w with
  | nil => rfl
  | cons c cs ih =>
    simp only [List.cons_append, List.dropWhile_cons, h c (List.mem_cons_self c cs)]
    exact ih fun d hd => h d (List.mem_cons_of_mem c hd)

theorem dropWhile_append_of_ne_nil (p : Char → Bool) (u v : List Char)
    (h : u.dropWhile p ≠ []) : (u ++ v).dropWhile p = u.dropWhile p ++ v := by
  induction u with
  | nil => exact absurd rfl h
  | cons c cs ih =>
    by_cases hc : p c
    · simp only [List.cons_append, List.dropWhile_cons, hc, if_true] at h ⊢
      exact ih h
    · simp [List.dropWhile_cons, hc]

theorem mem_of_mem_dropWhile (p : Char → Bool) (u : List Char) (c : Char)
    (h : c ∈ u.dropWhile p) : c ∈ u := by
  induction u with
  | nil => simp [List.dropWhile] at h
  | cons d ds ih =>
    by_cases hd : p d
    · simp only [List.dropWhile_cons, hd, if_true] at h
      exact List.mem_cons_of_mem d (ih h)
    · simp only [List.dropWhile_cons, hd] at h
      simpa using h

theorem ltrim_head_not_ws (l : List Char) (c : Char) (t : List Char)
    (h : ltrim l = c :: t) : isJsWhitespace c = false := by
  induction l with
  | nil => simp [ltrim, List.dropWhile] at h
  | cons d ds ih =>
    by_cases hd : isJsWhitespace d
    · simp only [ltrim, List.dropWhile_cons, hd, if_true] at h
      exact ih h
    · simp only [ltrim, List.dropWhile_cons, hd, if_false] at h
      cases h
      simpa using hd

theorem ltrim_append_of_eq_nil (a x : List Char) (h : ltrim a = []) :
    ltrim (a ++ x) = ltrim x := by
  have hall : ∀ c ∈ a, isJsWhitespace c = true := by
    intro c hc
    exact List.dropWhile_eq_nil_iff.mp h c hc
  exact dropWhile_append_of_all _ a x hall

theorem ltrim_append_of_ne_nil (a x : List Char) (h : ltrim a ≠ []) :
    ltrim (a ++ x) = ltrim a ++ x :=
  dropWhile_append_of_ne_nil _ a x h

theorem ltrim_spaces_colon (k : Nat) (b : List Char) :
    ltrim (spacesList k ++ ':' :: b) = ':' :: b := by
  have h1 : ∀ c ∈ spacesList k, isJsWhitespace c = true := by
    intro c hc
    have : c = ' ' := List.eq_of_mem_replicate hc
    subst this; rfl
  rw [ltrim, dropWhile_append_of_all _ _ _ h1]
  simp [List.dropWhile_cons, isJsWhitespace]

theorem rtrim_append_not_ws (d : Char) (hd : isJsWhitespace d = false)
    (y b : List Char) : rtrim (y ++ d :: b) = y ++ d :: rtrim b := by
  unfold rtrim
  rw [List.reverse_append, List.reverse_cons]
  by_cases hb : b.reverse.dropWhile isJsWhitespace = []
  · rw [List.append_assoc, dropWhile_append_of_all _ _ _
      (fun c hc => List.dropWhile_eq_nil_iff.mp hb c hc)]
    simp [List.dropWhile_cons, hd, hb]
  · rw [List.append_assoc, dropWhile_append_of_ne_nil _ _ _ hb]
    simp

theorem rtrim_head (c : Char) (t : List Char) :
    rtrim (c :: t) = [] ∨ ∃ t2, rtrim (c :: t) = c :: t2 := by
  unfold rtrim
  rw [List.reverse_cons]
  by_cases ht : t.reverse.dropWhile isJsWhitespace = []
  · rw [dropWhile_append_of_all _ _ _ (fun d hd => List.dropWhile_eq_nil_iff.mp ht d hd)]
    by_cases hc : isJsWhitespace c
    · left; simp [List.dropWhile_cons, hc]
    · right; exact ⟨[], by simp [List.dropWhile_cons, hc]⟩
  · right
    rw [dropWhile_append_of_ne_nil _ _ _ ht]
    exact ⟨(t.reverse.dropWhile isJsWhitespace).reverse, by simp⟩

theorem rtrim_idem (x : List Char) : rtrim (rtrim x) = rtrim x := by
  unfold rtrim
  rw [List.reverse_reverse, List.dropWhile_idempotent]

theorem jsTrim_idem (l : List Char) : jsTrim (jsTrim l) = jsTrim l := by
  unfold jsTrim
  have h1 : ltrim (rtrim (ltrim l)) = rtrim (ltrim l) := by
    cases hsh : ltrim l with
    | nil => simp [rtrim, ltrim, List.dropWhile]
    | cons c t =>
      have hc := ltrim_head_not_ws l c t hsh
      rcases rtrim_head c t with h | ⟨t2, h⟩
      · rw [h]; rfl
      · rw [h]
        simp [ltrim, List.dropWhile_cons, hc]
  rw [h1, rtrim_idem]

theorem jsTrim_colon_insert (a b : List Char) (k : Nat) (ha : ':' ∉ a) :
    jsTrim (a ++ spacesList k ++ ':' :: b) = jsTrim (a ++ ':' :: b) ∨
    ∃ A B, jsTrim (a ++ ':' :: b) = A ++ ':' :: B ∧
      jsTrim (a ++ spacesList k ++ ':' :: b) = A ++ spacesList k ++ ':' :: B ∧
      A ≠ [] ∧ ':' ∉ A := by
  have hcolon : isJsWhitespace ':' = false := rfl
  cases hsh : ltrim a with
  | nil =>
    left
    unfold jsTrim
    rw [List.append_assoc, ltrim_append_of_eq_nil _ _ hsh,
      ltrim_append_of_eq_nil _ _ hsh, ltrim_spaces_colon]
    have : ltrim (':' :: b) = ':' :: b := by
      simp [ltrim, List.dropWhile_cons, hcolon]
    rw [this]
  | cons c t =>
    right
    refine ⟨c :: t, rtrim b, ?_, ?_, by simp, ?_⟩
    · unfold jsTrim
      rw [ltrim_append_of_ne_nil _ _ (by simp [hsh]), hsh,
        rtrim_append_not_ws ':' hcolon (c :: t) b]
    · unfold jsTrim
      rw [List.append_assoc, ltrim_append_of_ne_nil _ _ (by simp [hsh]), hsh]
      have h2 := rtrim_append_not_ws ':' hcolon (c :: t ++ spacesList k) b
      simp only [List.append_assoc, List.cons_append] at h2 ⊢
      exact h2
    · intro hmem
      have hmem2 : ':' ∈ ltrim a := by rw [hsh]; exact hmem
      unfold ltrim at hmem2
      exact ha (mem_of_mem_dropWhile _ a ':' hmem2)

/-! ## Classification is preserved by colon padding -/

theorem jsIndexOf_nonneg_of_mem (c : Char) (l : List Char) (h : c ∈ l) :
    0 ≤ jsIndexOf c l := by
  induction l with
  | nil => simp at h
  | cons d ds ih =>
    by_cases hd : d = c
    · simp [jsIndexOf, hd]
    · rcases List.mem_cons.mp h with h1 | h1
      · exact absurd h1.symm hd
      · have h0 := ih h1
        have hne : ¬ jsIndexOf c ds = -1 := by omega
        simp only [jsIndexOf, hd, if_false, hne]
        omega

theorem startsWithList_single (d y : Char) (rest : List Char) :
    startsWithList (d :: rest) [y] = (d = y : Bool) := by
  simp [startsWithList, startsWithList_nil_pat]

theorem startsWithList_pair_insert (x y c : Char) (t B : List Char) (k : Nat)
    (hk : 1 ≤ k) (hy1 : ¬ y = ':') (hy2 : ¬ y = ' ') :
    startsWithList (c :: t ++ spacesList k ++ ':' :: B) [x, y] =
      startsWithList (c :: t ++ ':' :: B) [x, y] := by
  have d1 : decide ((' ' : Char) = y) = false := decide_eq_false fun h => hy2 h.symm
  have d2 : decide ((':' : Char) = y) = false := decide_eq_false fun h => hy1 h.symm
  cases t with
  | nil =>
    cases k with
    | zero => omega
    | succ k2 =>
      have hsp : spacesList (k2 + 1) = ' ' :: spacesList k2 := rfl
      rw [hsp]
      simp only [List.nil_append, List.cons_append, startsWithList,
        startsWithList_single, d1, d2]
  | cons c2 t2 =>
    simp only [List.cons_append, startsWithList, startsWithList_nil_pat]

theorem containsSub_pair_spaces (x y : Char) (B : List Char) (k : Nat)
    (hx : ¬ x = ' ') :
    containsSub [x, y] (spacesList k ++ ':' :: B) = containsSub [x, y] (':' :: B) := by
  have d0 : decide ((' ' : Char) = x) = false := decide_eq_false fun h => hx h.symm
  induction k with
  | zero => rfl
  | succ k2 ih =>
    have hsp : spacesList (k2 + 1) = ' ' :: spacesList k2 := rfl
    rw [hsp]
    simp only [List.cons_append, containsSub, startsWithList, d0,
      Bool.false_and, Bool.false_or]
    exact ih

theorem containsSub_pair_insert (x y : Char) (u B : List Char) (k : Nat)
    (hk : 1 ≤ k) (hx : ¬ x = ' ') (hy1 : ¬ y = ':') (hy2 : ¬ y = ' ') :
    containsSub [x, y] (u ++ spacesList k ++ ':' :: B) =
      containsSub [x, y] (u ++ ':' :: B) := by
  have d1 : decide ((' ' : Char) = y) = false := decide_eq_false fun h => hy2 h.symm
  have d2 : decide ((':' : Char) = y) = false := decide_eq_false fun h => hy1 h.symm
  induction u with
  | nil => simpa using containsSub_pair_spaces x y B k hx
  | cons c u2 ih =>
    simp only [List.cons_append, containsSub, List.append_eq]
    simp only [List.cons_append, containsSub, List.append_eq] at ih
    rw [ih]
    congr 1
    cases u2 with
    | nil =>
      cases k with
      | zero => omega
      | succ k2 =>
        have hsp : spacesList (k2 + 1) = ' ' :: spacesList k2 := rfl
        rw [hsp]
        simp only [List.nil_append, List.cons_append, startsWithList,
          startsWithList_single, d1, d2]
    | cons d u3 =>
      simp only [List.cons_append, startsWithList, startsWithList_nil_pat,
        startsWithList_single]

theorem isLineCommentLine_jsTrim (l : List Char) :
    isLineCommentLine (jsTrim l) = isLineCommentLine l := by
  unfold isLineCommentLine
  rw [jsTrim_idem]

theorem isLineIgnoreLine_jsTrim (l : List Char) :
    isLineIgnoreLine (jsTrim l) = isLineIgnoreLine l := by
  unfold isLineIgnoreLine
  rw [jsTrim_idem]

theorem marker_startsWith_comment (T : List Char)
    (h : startsWithList T ignoreMarker = true) :
    startsWithList T ['/', '/'] = true := by
  have he : ignoreMarker = ['/', '/'] ++ [' ', 'f', 'o', 'r', 'm', 'a', 't', 'e', '-', 'i', 'g', 'n', 'o', 'r', 'e'] := rfl
  rw [he] at h
  exact startsWithList_append_split _ _ _ h

theorem alignLine_eq (F : Int) (ac : Bool) (l : List Char) :
    alignLine F ac l =
      if jsIndexOf ':' l < F ∧ isLineCommentLine l = false then
        insertExtraSpaces l (F - jsIndexOf ':' l).toNat ac
      else l := by
  unfold alignLine
  by_cases h1 : jsIndexOf ':' l < F
  · by_cases h2 : isLineCommentLine l = true
    · simp [h1, h2]
    · simp only [Bool.not_eq_true] at h2
      simp [h1, h2]
  · simp [h1]

theorem alignLine_of_comment (F : Int) (ac : Bool) (l : List Char)
    (h : isLineCommentLine l = true) : alignLine F ac l = l := by
  rw [alignLine_eq]
  simp [h]

theorem alignLine_of_ge (F : Int) (ac : Bool) (l : List Char)
    (h : ¬ jsIndexOf ':' l < F) : alignLine F ac l = l := by
  rw [alignLine_eq]
  simp [h]

theorem alignLine_of_no_colon (F : Int) (ac : Bool) (l : List Char)
    (h : ':' ∉ l) : alignLine F ac l = l := by
  rw [alignLine_eq]
  split
  · exact insertExtraSpaces_of_no_colon l _ ac h
  · rfl

theorem alignLine_nil (F : Int) (ac : Bool) : alignLine F ac [] = [] :=
  alignLine_of_no_colon F ac [] (by simp)

theorem alignLine_true_split (F : Int) (l : List Char) (a b : List Char)
    (hsplit : l = a ++ ':' :: b) (ha : ':' ∉ a)
    (hlt : jsIndexOf ':' l < F) (hcom : isLineCommentLine l = false) :
    alignLine F true l = a ++ spacesList (F - (a.length : Int)).toNat ++ ':' :: b := by
  rw [alignLine_eq]
  simp only [hlt, hcom, and_self, if_true]
  subst hsplit
  rw [jsIndexOf_append ':' a b ha, insertExtraSpaces_before a b _ ha]

theorem spaces_no_colon (n : Nat) : ':' ∉ spacesList n := by
  intro hm
  have := List.eq_of_mem_replicate hm
  simp at this

theorem jsIndexOf_alignLine_true (F : Int) (l : List Char) :
    jsIndexOf ':' (alignLine F true l) =
      if 0 ≤ jsIndexOf ':' l ∧ jsIndexOf ':' l < F ∧ isLineCommentLine l = false
      then F else jsIndexOf ':' l := by
  by_cases hc : ':' ∈ l
  · have h0 : 0 ≤ jsIndexOf ':' l := jsIndexOf_nonneg_of_mem ':' l hc
    by_cases hlt : jsIndexOf ':' l < F
    · by_cases hcom : isLineCommentLine l = true
      · rw [alignLine_of_comment F true l hcom]
        simp [hcom]
      · simp only [Bool.not_eq_true] at hcom
        obtain ⟨a, b, hsplit, ha, hia⟩ := jsIndexOf_split ':' l h0
        rw [alignLine_true_split F l a b hsplit ha hlt hcom]
        have hnotin : ':' ∉ a ++ spacesList (F - (a.length : Int)).toNat := by
          simp only [List.mem_append, not_or]
          exact ⟨ha, spaces_no_colon _⟩
        have hgoal := jsIndexOf_append ':' (a ++ spacesList (F - (a.length : Int)).toNat) b hnotin
        have hshape : a ++ spacesList (F - (a.length : Int)).toNat ++ ':' :: b =
            (a ++ spacesList (F - (a.length : Int)).toNat) ++ ':' :: b := by
          simp [List.append_assoc]
        rw [hshape, hgoal]
        have hkl : ((a ++ spacesList (F - (a.length : Int)).toNat).length : Int) = F := by
          simp only [List.length_append, spacesList, List.length_replicate]
          rw [hia] at hlt h0
          push_cast
          omega
        rw [hkl]
        simp [h0, hlt, hcom]
    · rw [alignLine_of_ge F true l hlt]
      simp [hlt]
  · have hneg := jsIndexOf_neg_of_not_mem ':' l hc
    rw [alignLine_of_no_colon F true l hc]
    have hlt0 : ¬ (0 ≤ jsIndexOf ':' l) := by rw [hneg]; omega
    simp [hlt0]

theorem ignore_false_of_comment_false (x : List Char)
    (h : isLineCommentLine x = false) : isLineIgnoreLine x = false := by
  cases hi : isLineIgnoreLine x with
  | false => rfl
  | true => rw [ignore_implies_comment x hi] at h; cases h

theorem classif_alignLine (F : Int) (l : List Char) :
    classif (alignLine F true l) = classif l := by
  by_cases hc : ':' ∈ l
  · by_cases hlt : jsIndexOf ':' l < F
    · by_cases hcom : isLineCommentLine l = true
      · rw [alignLine_of_comment F true l hcom]
      · simp only [Bool.not_eq_true] at hcom
        have h0 : 0 ≤ jsIndexOf ':' l := jsIndexOf_nonneg_of_mem ':' l hc
        obtain ⟨a, b, hsplit, ha, hia⟩ := jsIndexOf_split ':' l h0
        have hk : 1 ≤ (F - jsIndexOf ':' l).toNat := by omega
        rw [hia] at hk
        rw [alignLine_true_split F l a b hsplit ha hlt hcom]
        rw [hsplit]
        rw [hsplit] at hcom
        rcases jsTrim_colon_insert a b (F - (a.length : Int)).toNat ha with heq | hdec
        · unfold classif
          rw [heq]
        · obtain ⟨A, B, hT, hT', hA, hAc⟩ := hdec
          have hAcons : ∃ c t, A = c :: t := by
            cases A with
            | nil => exact absurd rfl hA
            | cons c t => exact ⟨c, t, rfl⟩
          obtain ⟨c, t, rfl⟩ := hAcons
          have c2 : isLineCommentLine (jsTrim (a ++ spacesList (F - (a.length : Int)).toNat ++ ':' :: b)) =
              isLineCommentLine (jsTrim (a ++ ':' :: b)) := by
            rw [isLineCommentLine_jsTrim, isLineCommentLine_jsTrim]
            unfold isLineCommentLine
            rw [hT, hT']
            exact startsWithList_pair_insert '/' '/' c t B _ hk (by decide) (by decide)
          have c1 : isLineIgnoreLine (jsTrim (a ++ spacesList (F - (a.length : Int)).toNat ++ ':' :: b)) =
              isLineIgnoreLine (jsTrim (a ++ ':' :: b)) := by
            have hcl : isLineCommentLine (jsTrim (a ++ ':' :: b)) = false := by
              rw [isLineCommentLine_jsTrim]; exact hcom
            have hcl2 : isLineCommentLine (jsTrim (a ++ spacesList (F - (a.length : Int)).toNat ++ ':' :: b)) = false := by
              rw [c2]; exact hcl
            rw [ignore_false_of_comment_false _ hcl, ignore_false_of_comment_false _ hcl2]
          have c3 : containsSub ['*', '/'] (jsTrim (a ++ spacesList (F - (a.length : Int)).toNat ++ ':' :: b)) =
              containsSub ['*', '/'] (jsTrim (a ++ ':' :: b)) := by
            rw [hT, hT']
            exact containsSub_pair_insert '*' '/' (c :: t) B _ hk (by decide) (by decide) (by decide)
          have c4 : startsWithList (jsTrim (a ++ spacesList (F - (a.length : Int)).toNat ++ ':' :: b)) ['/', '*'] =
              startsWithList (jsTrim (a ++ ':' :: b)) ['/', '*'] := by
            rw [hT, hT']
            exact startsWithList_pair_insert '/' '*' c t B _ hk (by decide) (by decide)
          have c5 : isProperty (jsTrim (a ++ spacesList (F - (a.length : Int)).toNat ++ ':' :: b)) =
              isProperty (jsTrim (a ++ ':' :: b)) := by
            rw [hT, hT']
            have e1 : isProperty ((c :: t) ++ spacesList (F - (a.length : Int)).toNat ++ ':' :: B) =
                isProperty (':' :: B) := by
              have hshape : (c :: t) ++ spacesList (F - (a.length : Int)).toNat ++ ':' :: B =
                  ((c :: t) ++ spacesList (F - (a.length : Int)).toNat) ++ ':' :: B := by
                simp [List.append_assoc]
              rw [hshape]
              refine isProperty_append_no_colon _ _ ?_
              simp only [List.mem_append, not_or]
              exact ⟨hAc, spaces_no_colon _⟩
            have e2 : isProperty ((c :: t) ++ ':' :: B) = isProperty (':' :: B) :=
              isProperty_append_no_colon _ _ hAc
            rw [e1, e2]
          unfold classif
          rw [c1, c2, c3, c4, c5]
    · rw [alignLine_of_ge F true l hlt]
  · rw [alignLine_of_no_colon F true l hc]

theorem isLineCommentLine_alignLine (F : Int) (l : List Char) :
    isLineCommentLine (alignLine F true l) = isLineCommentLine l := by
  have h := congrArg (fun p => p.2.1) (classif_alignLine F l)
  simp only [classif] at h
  rw [isLineCommentLine_jsTrim, isLineCommentLine_jsTrim] at h
  exact h

theorem alignLine_true_idem (F : Int) (l : List Char) :
    alignLine F true (alignLine F true l) = alignLine F true l := by
  by_cases hcom : isLineCommentLine l = true
  · rw [alignLine_of_comment F true l hcom, alignLine_of_comment F true l hcom]
  · by_cases hlt : jsIndexOf ':' l < F
    · by_cases hc : ':' ∈ l
      · have hci := jsIndexOf_alignLine_true F l
        have h0 := jsIndexOf_nonneg_of_mem ':' l hc
        rw [if_pos ⟨h0, hlt, by simpa using hcom⟩] at hci
        exact alignLine_of_ge F true _ (by rw [hci]; omega)
      · rw [alignLine_of_no_colon F true l hc, alignLine_of_no_colon F true l hc]
    · rw [alignLine_of_ge F true l hlt, alignLine_of_ge F true l hlt]

theorem findIndexOfFurthestColon_map_alignLine (S : List (List Char)) :
    findIndexOfFurthestColon (S.map (alignLine (findIndexOfFurthestColon S) true)) =
      findIndexOfFurthestColon S := by
  cases hS : S with
  | nil => rfl
  | cons x xs =>
    rw [← hS]
    have hne : S ≠ [] := by rw [hS]; simp
    have hne2 : S.map (alignLine (findIndexOfFurthestColon S) true) ≠ [] := by
      rw [hS]; simp
    apply le_antisymm
    · apply findIndexOfFurthestColon_le _ _ hne2
      intro l' hl'
      obtain ⟨l, hl, rfl⟩ := List.mem_map.mp hl'
      have hle := findIndexOfFurthestColon_ge S l hl
      rw [jsIndexOf_alignLine_true]
      split
      · exact le_refl _
      · exact hle
    · obtain ⟨l, hl, he⟩ := findIndexOfFurthestColon_attained S hne
      have hmem := List.mem_map_of_mem (alignLine (findIndexOfFurthestColon S) true) hl
      have hge := findIndexOfFurthestColon_ge _ _ hmem
      rw [jsIndexOf_alignLine_true] at hge
      have hnotlt : ¬ jsIndexOf ':' l < findIndexOfFurthestColon S := by omega
      rw [if_neg (by intro h3; exact hnotlt h3.2.1)] at hge
      omega

/-! ## Lemmas about the group-formatting loop -/

theorem formatGroupFrom_length (f l : Nat) (F : Int) (ac : Bool) :
    ∀ (i0 : Nat) (xs : List (List Char)),
      (formatGroupFrom f l F ac i0 xs).length = xs.length := by
  intro i0 xs
  induction xs generalizing i0 with
  | nil => rfl
  | cons x xs ih => simp [formatGroupFrom, ih]

theorem formatGroup_length (L : List (List Char)) (f l : Nat) (F : Int) (ac : Bool) :
    (formatGroup L f l F ac).length = L.length :=
  formatGroupFrom_length f l F ac 0 L

theorem formatGroupFrom_getD (f l : Nat) (F : Int) (ac : Bool) :
    ∀ (xs : List (List Char)) (i0 j : Nat),
      (formatGroupFrom f l F ac i0 xs).getD j [] =
        if f ≤ i0 + j ∧ i0 + j ≤ l then alignLine F ac (xs.getD j [])
        else xs.getD j [] := by
  intro xs
  induction xs with
  | nil =>
    intro i0 j
    simp only [formatGroupFrom, List.getD]
    split
    · exact (alignLine_nil F ac).symm
    · rfl
  | cons x xs ih =>
    intro i0 j
    cases j with
    | zero =>
      simp only [formatGroupFrom, List.getD_cons_zero, Nat.add_zero]
      by_cases h1 : f ≤ i0
      · by_cases h2 : i0 ≤ l
        · simp [h1, h2]
        · simp [h1, h2]
      · simp [h1]
    | succ j2 =>
      simp only [formatGroupFrom, List.getD_cons_succ]
      rw [ih (i0 + 1) j2]
      have harith : i0 + 1 + j2 = i0 + (j2 + 1) := by omega
      rw [harith]

theorem formatGroup_getD (L : List (List Char)) (f l : Nat) (F : Int) (ac : Bool)
    (j : Nat) :
    (formatGroup L f l F ac).getD j [] =
      if f ≤ j ∧ j ≤ l then alignLine F ac (L.getD j []) else L.getD j [] := by
  have := formatGroupFrom_getD f l F ac L 0 j
  simpa using this

theorem va_eq_of_getD (u v : List (List Char)) (hl : u.length = v.length)
    (h : ∀ j, u.getD j [] = v.getD j []) : u = v := by
  induction u generalizing v with
  | nil => cases v with
    | nil => rfl
    | cons y ys => simp at hl
  | cons x xs ih =>
    cases v with
    | nil => simp at hl
    | cons y ys =>
      have h0 := h 0
      simp only [List.getD_cons_zero] at h0
      subst h0
      have hlen : xs.length = ys.length := by simpa using hl
      have htail : ∀ j, xs.getD j [] = ys.getD j [] := fun j => by
        have := h (j + 1)
        simpa using this
      rw [ih ys hlen htail]

theorem va_getD_take (u : List (List Char)) :
    ∀ (c j : Nat), (u.take c).getD j [] = if j < c then u.getD j [] else [] := by
  induction u with
  | nil =>
    intro c j
    simp only [List.take_nil, List.getD]
    split <;> rfl
  | cons x xs ih =>
    intro c j
    cases c with
    | zero => simp [List.getD]
    | succ c2 =>
      cases j with
      | zero => simp
      | succ j2 =>
        simp only [List.take_succ_cons, List.getD_cons_succ]
        rw [ih c2 j2]
        by_cases h : j2 < c2
        · simp [h, Nat.succ_lt_succ h]
        · have : ¬ j2 + 1 < c2 + 1 := by omega
          simp [h, this]

theorem va_getD_drop (u : List (List Char)) :
    ∀ (f j : Nat), (u.drop f).getD j [] = u.getD (f + j) [] := by
  induction u with
  | nil => intro f j; simp [List.getD]
  | cons x xs ih =>
    intro f j
    cases f with
    | zero => simp
    | succ f2 =>
      simp only [List.drop_succ_cons, List.getD_cons_succ]
      rw [ih f2 j]
      have : f2 + 1 + j = f2 + j + 1 := by omega
      rw [this]
      rfl

theorem va_getD_map_alignLine (g : List Char → List Char) (hg : g [] = [])
    (S : List (List Char)) (j : Nat) :
    (S.map g).getD j [] = g (S.getD j []) := by
  induction S generalizing j with
  | nil => simp [List.getD, hg]
  | cons x xs ih =>
    cases j with
    | zero => simp
    | succ j2 => simpa using ih j2

/-! ## Branch lemmas for the forEach body -/

theorem vaStep_ign (tot e : Nat) (ac : Bool) (s : VAState) (i : Nat)
    (h : s.ignoreNextLine = true) :
    vaStep tot e ac s i = { s with ignoreNextLine := false } := by
  simp only [vaStep, h]
  simp

theorem vaStep_marker (tot e : Nat) (ac : Bool) (s : VAState) (i : Nat)
    (h0 : s.ignoreNextLine = false)
    (h1 : isLineIgnoreLine (jsTrim (s.lines.getD i [])) = true) :
    vaStep tot e ac s i = { s with ignoreNextLine := true } := by
  simp only [vaStep, h0, h1]
  simp

theorem vaStep_comment (tot e : Nat) (ac : Bool) (s : VAState) (i : Nat)
    (h0 : s.ignoreNextLine = false)
    (h1 : isLineIgnoreLine (jsTrim (s.lines.getD i [])) = false)
    (h2 : isLineCommentLine (jsTrim (s.lines.getD i [])) = true) :
    vaStep tot e ac s i = s := by
  simp only [vaStep, h0, h1, h2]
  simp

theorem vaStep_star (tot e : Nat) (ac : Bool) (s : VAState) (i : Nat)
    (h0 : s.ignoreNextLine = false)
    (h1 : isLineIgnoreLine (jsTrim (s.lines.getD i [])) = false)
    (h2 : isLineCommentLine (jsTrim (s.lines.getD i [])) = false)
    (h3 : containsSub ['*', '/'] (jsTrim (s.lines.getD i [])) = true) :
    vaStep tot e ac s i = { s with commentBlockEntered := false } := by
  simp only [vaStep, h0, h1, h2, h3]
  simp

theorem vaStep_block (tot e : Nat) (ac : Bool) (s : VAState) (i : Nat)
    (h0 : s.ignoreNextLine = false)
    (h1 : isLineIgnoreLine (jsTrim (s.lines.getD i [])) = false)
    (h2 : isLineCommentLine (jsTrim (s.lines.getD i [])) = false)
    (h3 : containsSub ['*', '/'] (jsTrim (s.lines.getD i [])) = false)
    (h4 : startsWithList (jsTrim (s.lines.getD i [])) ['/', '*'] = true ∨
          s.commentBlockEntered = true) :
    vaStep tot e ac s i = { s with commentBlockEntered := true } := by
  rcases h4 with h4 | h4 <;>
    · simp only [vaStep, h0, h1, h2, h3, h4]
      simp

theorem vaStep_open (tot e : Nat) (ac : Bool) (s : VAState) (i : Nat)
    (h0 : s.ignoreNextLine = false)
    (h1 : isLineIgnoreLine (jsTrim (s.lines.getD i [])) = false)
    (h2 : isLineCommentLine (jsTrim (s.lines.getD i [])) = false)
    (h3 : containsSub ['*', '/'] (jsTrim (s.lines.getD i [])) = false)
    (h4 : startsWithList (jsTrim (s.lines.getD i [])) ['/', '*'] = false)
    (h5 : s.commentBlockEntered = false)
    (hprop : isProperty (jsTrim (s.lines.getD i [])) = true)
    (hfirst : s.firstProperty = none)
    (hlast : s.lastProperty = none)
    (htot : ¬ tot - 1 = i) :
    vaStep tot e ac s i = { s with firstProperty := some i } := by
  simp only [vaStep, h0, h1, h2, h3, h4, h5, hprop, hfirst, hlast]
  simp [htot]

theorem vaStep_continue (tot e : Nat) (ac : Bool) (s : VAState) (i f : Nat)
    (h0 : s.ignoreNextLine = false)
    (h1 : isLineIgnoreLine (jsTrim (s.lines.getD i [])) = false)
    (h2 : isLineCommentLine (jsTrim (s.lines.getD i [])) = false)
    (h3 : containsSub ['*', '/'] (jsTrim (s.lines.getD i [])) = false)
    (h4 : startsWithList (jsTrim (s.lines.getD i [])) ['/', '*'] = false)
    (h5 : s.commentBlockEntered = false)
    (hprop : isProperty (jsTrim (s.lines.getD i [])) = true)
    (hfirst : s.firstProperty = some f)
    (hlast : s.lastProperty = none)
    (htot : ¬ tot - 1 = i) :
    vaStep tot e ac s i = s := by
  obtain ⟨ls, fp, lp, cb, ig⟩ := s
  dsimp only at h0 h1 h2 h3 h4 h5 hprop hfirst hlast
  subst h0 h5 hfirst hlast
  simp only [vaStep, h1, h2, h3, h4, hprop]
  simp [htot]

theorem vaStep_nonprop_nofirst (tot e : Nat) (ac : Bool) (s : VAState) (i : Nat)
    (h0 : s.ignoreNextLine = false)
    (h1 : isLineIgnoreLine (jsTrim (s.lines.getD i [])) = false)
    (h2 : isLineCommentLine (jsTrim (s.lines.getD i [])) = false)
    (h3 : containsSub ['*', '/'] (jsTrim (s.lines.getD i [])) = false)
    (h4 : startsWithList (jsTrim (s.lines.getD i [])) ['/', '*'] = false)
    (h5 : s.commentBlockEntered = false)
    (hprop : isProperty (jsTrim (s.lines.getD i [])) = false)
    (hfirst : s.firstProperty = none)
    (htot : ¬ tot - 1 = i) :
    vaStep tot e ac s i = s := by
  obtain ⟨ls, fp, lp, cb, ig⟩ := s
  dsimp only at h0 h1 h2 h3 h4 h5 hprop hfirst
  subst h0 h5 hfirst
  simp only [vaStep, h1, h2, h3, h4, hprop]
  simp [htot]

theorem vaStep_eod_nofirst (tot e : Nat) (ac : Bool) (s : VAState) (i : Nat)
    (h0 : s.ignoreNextLine = false)
    (h1 : isLineIgnoreLine (jsTrim (s.lines.getD i [])) = false)
    (h2 : isLineCommentLine (jsTrim (s.lines.getD i [])) = false)
    (h3 : containsSub ['*', '/'] (jsTrim (s.lines.getD i [])) = false)
    (h4 : startsWithList (jsTrim (s.lines.getD i [])) ['/', '*'] = false)
    (h5 : s.commentBlockEntered = false)
    (hprop : isProperty (jsTrim (s.lines.getD i [])) = false)
    (hfirst : s.firstProperty = none)
    (htot : tot - 1 = i) :
    vaStep tot e ac s i = { s with lastProperty := some i } := by
  simp only [vaStep, h0, h1, h2, h3, h4, h5, hprop, hfirst]
  simp [htot]

theorem vaStep_close_nonprop (tot e : Nat) (ac : Bool) (s : VAState) (i f : Nat)
    (h0 : s.ignoreNextLine = false)
    (h1 : isLineIgnoreLine (jsTrim (s.lines.getD i [])) = false)
    (h2 : isLineCommentLine (jsTrim (s.lines.getD i [])) = false)
    (h3 : containsSub ['*', '/'] (jsTrim (s.lines.getD i [])) = false)
    (h4 : startsWithList (jsTrim (s.lines.getD i [])) ['/', '*'] = false)
    (h5 : s.commentBlockEntered = false)
    (hprop : isProperty (jsTrim (s.lines.getD i [])) = false)
    (hfirst : s.firstProperty = some f) :
    vaStep tot e ac s i =
      { lines := formatGroup s.lines f i
          (findIndexOfFurthestColon ((s.lines.drop f).take (i - f)) + (e : Int)) ac,
        firstProperty := none, lastProperty := none,
        commentBlockEntered := s.commentBlockEntered,
        ignoreNextLine := s.ignoreNextLine } := by
  simp only [vaStep, h0, h1, h2, h3, h4, h5, hprop, hfirst]
  simp

theorem vaStep_close_eod_prop (tot e : Nat) (ac : Bool) (s : VAState) (i f : Nat)
    (h0 : s.ignoreNextLine = false)
    (h1 : isLineIgnoreLine (jsTrim (s.lines.getD i [])) = false)
    (h2 : isLineCommentLine (jsTrim (s.lines.getD i [])) = false)
    (h3 : containsSub ['*', '/'] (jsTrim (s.lines.getD i [])) = false)
    (h4 : startsWithList (jsTrim (s.lines.getD i [])) ['/', '*'] = false)
    (h5 : s.commentBlockEntered = false)
    (hprop : isProperty (jsTrim (s.lines.getD i [])) = true)
    (hfirst : s.firstProperty = some f)
    (htot : tot - 1 = i) :
    vaStep tot e ac s i =
      { lines := formatGroup s.lines f i
          (findIndexOfFurthestColon ((s.lines.drop f).take (i - f)) + (e : Int)) ac,
        firstProperty := none, lastProperty := none,
        commentBlockEntered := s.commentBlockEntered,
        ignoreNextLine := s.ignoreNextLine } := by
  simp only [vaStep, h0, h1, h2, h3, h4, h5, hprop, hfirst]
  simp [htot]

theorem vaStep_close_eod_open (tot e : Nat) (ac : Bool) (s : VAState) (i : Nat)
    (h0 : s.ignoreNextLine = false)
    (h1 : isLineIgnoreLine (jsTrim (s.lines.getD i [])) = false)
    (h2 : isLineCommentLine (jsTrim (s.lines.getD i [])) = false)
    (h3 : containsSub ['*', '/'] (jsTrim (s.lines.getD i [])) = false)
    (h4 : startsWithList (jsTrim (s.lines.getD i [])) ['/', '*'] = false)
    (h5 : s.commentBlockEntered = false)
    (hprop : isProperty (jsTrim (s.lines.getD i [])) = true)
    (hfirst : s.firstProperty = none)
    (htot : tot - 1 = i) :
    vaStep tot e ac s i =
      { lines := formatGroup s.lines i i
          (findIndexOfFurthestColon ((s.lines.drop i).take (i - i)) + (e : Int)) ac,
        firstProperty := none, lastProperty := none,
        commentBlockEntered := s.commentBlockEntered,
        ignoreNextLine := s.ignoreNextLine } := by
  simp only [vaStep, h0, h1, h2, h3, h4, h5, hprop, hfirst]
  simp [htot]

/-- Exhaustive description of one `forEach` iteration when no stale
`lastProperty` is pending: either the step is bookkeeping only (lines
untouched), or it closes a group ending at the current index and rewrites
it. -/
theorem vaStep_shape (tot e : Nat) (ac : Bool) (s : VAState) (i : Nat)
    (hlast : s.lastProperty = none) :
    ((vaStep tot e ac s i).lines = s.lines ∧
      ((vaStep tot e ac s i).firstProperty = s.firstProperty ∨
        ((vaStep tot e ac s i).firstProperty = some i ∧ s.firstProperty = none)) ∧
      ((vaStep tot e ac s i).lastProperty = none ∨ tot - 1 = i)) ∨
    (∃ f, (s.firstProperty = some f ∨ (s.firstProperty = none ∧ f = i)) ∧
      (vaStep tot e ac s i).lines = formatGroup s.lines f i
        (findIndexOfFurthestColon ((s.lines.drop f).take (i - f)) + (e : Int)) ac ∧
      (vaStep tot e ac s i).firstProperty = none ∧
      (vaStep tot e ac s i).lastProperty = none) := by
  by_cases hig : s.ignoreNextLine = true
  · rw [vaStep_ign tot e ac s i hig]
    exact Or.inl ⟨rfl, Or.inl rfl, Or.inl hlast⟩
  · have hig' : s.ignoreNextLine = false := by simpa using hig
    by_cases h1 : isLineIgnoreLine (jsTrim (s.lines.getD i [])) = true
    · rw [vaStep_marker tot e ac s i hig' h1]
      exact Or.inl ⟨rfl, Or.inl rfl, Or.inl hlast⟩
    · have h1' : isLineIgnoreLine (jsTrim (s.lines.getD i [])) = false := by simpa using h1
      by_cases h2 : isLineCommentLine (jsTrim (s.lines.getD i [])) = true
      · rw [vaStep_comment tot e ac s i hig' h1' h2]
        exact Or.inl ⟨rfl, Or.inl rfl, Or.inl hlast⟩
      · have h2' : isLineCommentLine (jsTrim (s.lines.getD i [])) = false := by simpa using h2
        by_cases h3 : containsSub ['*', '/'] (jsTrim (s.lines.getD i [])) = true
        · rw [vaStep_star tot e ac s i hig' h1' h2' h3]
          exact Or.inl ⟨rfl, Or.inl rfl, Or.inl hlast⟩
        · have h3' : containsSub ['*', '/'] (jsTrim (s.lines.getD i [])) = false := by
            simpa using h3
          by_cases h4 : startsWithList (jsTrim (s.lines.getD i [])) ['/', '*'] = true ∨
              s.commentBlockEntered = true
          · rw [vaStep_block tot e ac s i hig' h1' h2' h3' h4]
            exact Or.inl ⟨rfl, Or.inl rfl, Or.inl hlast⟩
          · push_neg at h4
            have h4' : startsWithList (jsTrim (s.lines.getD i [])) ['/', '*'] = false := by
              simpa using h4.1
            have h5' : s.commentBlockEntered = false := by simpa using h4.2
            by_cases hprop : isProperty (jsTrim (s.lines.getD i [])) = true
            · cases hf : s.firstProperty with
              | none =>
                by_cases htot : tot - 1 = i
                · rw [vaStep_close_eod_open tot e ac s i hig' h1' h2' h3' h4' h5' hprop hf htot]
                  exact Or.inr ⟨i, Or.inr ⟨rfl, rfl⟩, rfl, rfl, rfl⟩
                · rw [vaStep_open tot e ac s i hig' h1' h2' h3' h4' h5' hprop hf hlast htot]
                  exact Or.inl ⟨rfl, Or.inr ⟨rfl, rfl⟩, Or.inl hlast⟩
              | some f =>
                by_cases htot : tot - 1 = i
                · rw [vaStep_close_eod_prop tot e ac s i f hig' h1' h2' h3' h4' h5' hprop hf htot]
                  exact Or.inr ⟨f, Or.inl rfl, rfl, rfl, rfl⟩
                · rw [vaStep_continue tot e ac s i f hig' h1' h2' h3' h4' h5' hprop hf hlast htot]
                  exact Or.inl ⟨rfl, Or.inl hf, Or.inl hlast⟩
            · have hprop' : isProperty (jsTrim (s.lines.getD i [])) = false := by
                simpa using hprop
              cases hf : s.firstProperty with
              | none =>
                by_cases htot : tot - 1 = i
                · rw [vaStep_eod_nofirst tot e ac s i hig' h1' h2' h3' h4' h5' hprop' hf htot]
                  exact Or.inl ⟨rfl, Or.inl hf, Or.inr htot⟩
                · rw [vaStep_nonprop_nofirst tot e ac s i hig' h1' h2' h3' h4' h5' hprop' hf htot]
                  exact Or.inl ⟨rfl, Or.inl hf, Or.inl hlast⟩
              | some f =>
                rw [vaStep_close_nonprop tot e ac s i f hig' h1' h2' h3' h4' h5' hprop' hf]
                exact Or.inr ⟨f, Or.inl rfl, rfl, rfl, rfl⟩

/-! ## Run-level lemmas -/

theorem vaRun_zero (tot e : Nat) (ac : Bool) (i : Nat) (s : VAState) :
    vaRun tot e ac i 0 s = s := rfl

theorem vaRun_succ (tot e : Nat) (ac : Bool) (i c : Nat) (s : VAState) :
    vaRun tot e ac i (c + 1) s = vaRun tot e ac (i + 1) c (vaStep tot e ac s i) := rfl

theorem vaRun_append (tot e : Nat) (ac : Bool) :
    ∀ (a b i : Nat) (s : VAState),
      vaRun tot e ac i (a + b) s = vaRun tot e ac (i + a) b (vaRun tot e ac i a s) := by
  intro a
  induction a with
  | zero => intro b i s; simp [vaRun_zero]
  | succ a2 ih =>
    intro b i s
    have h1 : a2 + 1 + b = (a2 + b) + 1 := by omega
    rw [h1, vaRun_succ, vaRun_succ, ih b (i + 1) (vaStep tot e ac s i)]
    have h2 : i + 1 + a2 = i + (a2 + 1) := by omega
    rw [h2]

theorem vaStep_last_none (tot e : Nat) (ac : Bool) (s : VAState) (i : Nat)
    (hlast : s.lastProperty = none) (htot : ¬ tot - 1 = i) :
    (vaStep tot e ac s i).lastProperty = none := by
  rcases vaStep_shape tot e ac s i hlast with ⟨_, _, h | h⟩ | ⟨f, _, _, _, h⟩
  · exact h
  · exact absurd h htot
  · exact h

theorem vaStep_lines_length (tot e : Nat) (ac : Bool) (s : VAState) (i : Nat)
    (hlast : s.lastProperty = none) :
    (vaStep tot e ac s i).lines.length = s.lines.length := by
  rcases vaStep_shape tot e ac s i hlast with ⟨h, _, _⟩ | ⟨f, _, h, _, _⟩
  · rw [h]
  · rw [h]; exact formatGroup_length _ _ _ _ _

theorem vaRun_lines_length (tot e : Nat) (ac : Bool) :
    ∀ (c i : Nat) (s : VAState), i + c ≤ tot → (c ≠ 0 → s.lastProperty = none) →
      (vaRun tot e ac i c s).lines.length = s.lines.length := by
  intro c
  induction c with
  | zero => intro i s _ _; rfl
  | succ c2 ih =>
    intro i s hle hlast
    have hl := hlast (by omega)
    rw [vaRun_succ]
    rw [ih (i + 1) (vaStep tot e ac s i) (by omega) ?hrec]
    · exact vaStep_lines_length tot e ac s i hl
    case hrec =>
      intro hc2
      refine vaStep_last_none tot e ac s i hl ?_
      omega

theorem vaRun_pred (tot e : Nat) (ac : Bool) (P : List Char → Prop)
    (hstable : ∀ (Fv : Int) (x : List Char), P x → P (alignLine Fv ac x)) :
    ∀ (c i : Nat) (s : VAState) (j : Nat), i + c ≤ tot →
      (c ≠ 0 → s.lastProperty = none) → P (s.lines.getD j []) →
      P ((vaRun tot e ac i c s).lines.getD j []) := by
  intro c
  induction c with
  | zero => intro i s j _ _ hp; exact hp
  | succ c2 ih =>
    intro i s j hle hlast hp
    have hl := hlast (by omega)
    rw [vaRun_succ]
    refine ih (i + 1) (vaStep tot e ac s i) j (by omega) ?_ ?_
    · intro hc2
      refine vaStep_last_none tot e ac s i hl ?_
      omega
    · rcases vaStep_shape tot e ac s i hl with ⟨h, _, _⟩ | ⟨f, _, h, _, _⟩
      · rw [h]; exact hp
      · rw [h, formatGroup_getD]
        split
        · exact hstable _ _ hp
        · exact hp

theorem vaThresh_of_none (s : VAState) (i : Nat) (h : s.firstProperty = none) :
    vaThresh s i = i := by
  unfold vaThresh
  rw [h]

theorem vaThresh_of_some (s : VAState) (i f : Nat) (h : s.firstProperty = some f) :
    vaThresh s i = f := by
  unfold vaThresh
  rw [h]

theorem vaRun_stab (tot e : Nat) (ac : Bool) :
    ∀ (c i : Nat) (s : VAState) (j : Nat), i + c ≤ tot →
      (c ≠ 0 → s.lastProperty = none) →
      (∀ f, s.firstProperty = some f → f ≤ i) →
      j < vaThresh s i →
      (vaRun tot e ac i c s).lines.getD j [] = s.lines.getD j [] := by
  intro c
  induction c with
  | zero => intro i s j _ _ _ _; rfl
  | succ c2 ih =>
    intro i s j hle hlast hfb hj
    have hl := hlast (by omega)
    rw [vaRun_succ]
    have hstep := vaStep_shape tot e ac s i hl
    rcases hstep with ⟨hlines, hfirst, _⟩ | ⟨f, hprov, hlines, hfirstnone, hlastnone⟩
    · have hfb2 : ∀ f, (vaStep tot e ac s i).firstProperty = some f → f ≤ i + 1 := by
        intro f hf
        rcases hfirst with h | ⟨h, _⟩
        · rw [h] at hf
          exact le_trans (hfb f hf) (by omega)
        · rw [h] at hf
          cases hf
          omega
      have hth2 : j < vaThresh (vaStep tot e ac s i) (i + 1) := by
        rcases hfirst with h | ⟨h, hnone⟩
        · cases hfp : s.firstProperty with
          | none =>
            rw [vaThresh_of_none s i hfp] at hj
            rw [vaThresh_of_none _ _ (by rw [h, hfp])]
            omega
          | some f =>
            rw [vaThresh_of_some s i f hfp] at hj
            rw [vaThresh_of_some _ _ f (by rw [h, hfp])]
            exact hj
        · rw [vaThresh_of_none s i hnone] at hj
          rw [vaThresh_of_some _ _ i h]
          exact hj
      have hrec := ih (i + 1) (vaStep tot e ac s i) j (by omega)
        (fun hc2 => vaStep_last_none tot e ac s i hl (by omega)) hfb2 hth2
      rw [hrec, hlines]
    · have hjf : j < f := by
        rcases hprov with h | ⟨h, rfl⟩
        · rw [vaThresh_of_some s _ f h] at hj; exact hj
        · rw [vaThresh_of_none s _ h] at hj; exact hj
      have hfi : f ≤ i := by
        rcases hprov with h | ⟨h, rfl⟩
        · exact hfb f h
        · exact le_refl _
      have hrec := ih (i + 1) (vaStep tot e ac s i) j (by omega)
        (fun hc2 => by rw [hlastnone])
        (fun f2 hf2 => by rw [hfirstnone] at hf2; cases hf2)
        (by rw [vaThresh_of_none _ _ hfirstnone]; omega)
      rw [hrec, hlines, formatGroup_getD]
      rw [if_neg (by intro hcon; omega)]

theorem vaRun_raw (tot e : Nat) (ac : Bool) :
    ∀ (c i : Nat) (s : VAState) (j : Nat), i + c ≤ tot →
      (c ≠ 0 → s.lastProperty = none) → i + c ≤ j →
      (vaRun tot e ac i c s).lines.getD j [] = s.lines.getD j [] := by
  intro c
  induction c with
  | zero => intro i s j _ _ _; rfl
  | succ c2 ih =>
    intro i s j hle hlast hj
    have hl := hlast (by omega)
    rw [vaRun_succ]
    have hrec := ih (i + 1) (vaStep tot e ac s i) j (by omega)
      (fun hc2 => vaStep_last_none tot e ac s i hl (by omega)) (by omega)
    rw [hrec]
    rcases vaStep_shape tot e ac s i hl with ⟨hlines, _, _⟩ | ⟨f, _, hlines, _, _⟩
    · rw [hlines]
    · rw [hlines, formatGroup_getD]
      rw [if_neg (by intro hcon; omega)]

/-! ## The second run simulates the first and changes nothing -/

theorem sim_step_helper (tot c2 i : Nat) (s t s1 t1 : VAState)
    (IH : ∀ (i2 : Nat) (s2 t2 : VAState), i2 + c2 = tot →
      (c2 ≠ 0 → s2.lastProperty = none) →
      (∀ f, s2.firstProperty = some f → f ≤ i2) →
      t2.firstProperty = s2.firstProperty →
      t2.lastProperty = s2.lastProperty →
      t2.commentBlockEntered = s2.commentBlockEntered →
      t2.ignoreNextLine = s2.ignoreNextLine →
      t2.lines = (vaRun tot 0 true i2 c2 s2).lines →
      (vaRun tot 0 true i2 c2 t2).lines = t2.lines)
    (hs1 : vaStep tot 0 true s i = s1)
    (ht1 : vaStep tot 0 true t i = t1)
    (htotal : (i + 1) + c2 = tot)
    (hlines_t1 : t1.lines = t.lines)
    (hlines_run : t.lines = (vaRun tot 0 true i (c2 + 1) s).lines)
    (hc1 : t1.firstProperty = s1.firstProperty)
    (hc2 : t1.lastProperty = s1.lastProperty)
    (hc3 : t1.commentBlockEntered = s1.commentBlockEntered)
    (hc4 : t1.ignoreNextLine = s1.ignoreNextLine)
    (h5 : c2 ≠ 0 → s1.lastProperty = none)
    (h6 : ∀ f, s1.firstProperty = some f → f ≤ i + 1) :
    (vaRun tot 0 true i (c2 + 1) t).lines = t.lines := by
  rw [vaRun_succ, ht1]
  have hrun : t1.lines = (vaRun tot 0 true (i + 1) c2 s1).lines := by
    rw [hlines_t1, hlines_run, vaRun_succ, hs1]
  rw [IH (i + 1) s1 t1 htotal h5 h6 hc1 hc2 hc3 hc4 hrun, hlines_t1]

theorem vaRun_sim_close (tot c2 i : Nat) (s t : VAState)
    (IH : ∀ (i2 : Nat) (s2 t2 : VAState), i2 + c2 = tot →
      (c2 ≠ 0 → s2.lastProperty = none) →
      (∀ f, s2.firstProperty = some f → f ≤ i2) →
      t2.firstProperty = s2.firstProperty →
      t2.lastProperty = s2.lastProperty →
      t2.commentBlockEntered = s2.commentBlockEntered →
      t2.ignoreNextLine = s2.ignoreNextLine →
      t2.lines = (vaRun tot 0 true i2 c2 s2).lines →
      (vaRun tot 0 true i2 c2 t2).lines = t2.lines)
    (htotal : i + (c2 + 1) = tot)
    (hl : s.lastProperty = none)
    (hcb : t.commentBlockEntered = s.commentBlockEntered)
    (hig : t.ignoreNextLine = s.ignoreNextLine)
    (hlines : t.lines = (vaRun tot 0 true i (c2 + 1) s).lines)
    (f : Nat) (hfi : f ≤ i)
    (hs1 : vaStep tot 0 true s i =
      { lines := formatGroup s.lines f i
          (findIndexOfFurthestColon ((s.lines.drop f).take (i - f)) + ((0 : Nat) : Int)) true,
        firstProperty := none, lastProperty := none,
        commentBlockEntered := s.commentBlockEntered,
        ignoreNextLine := s.ignoreNextLine })
    (ht1 : vaStep tot 0 true t i =
      { lines := formatGroup t.lines f i
          (findIndexOfFurthestColon ((t.lines.drop f).take (i - f)) + ((0 : Nat) : Int)) true,
        firstProperty := none, lastProperty := none,
        commentBlockEntered := t.commentBlockEntered,
        ignoreNextLine := t.ignoreNextLine }) :
    (vaRun tot 0 true i (c2 + 1) t).lines = t.lines := by
  have hzs : findIndexOfFurthestColon ((s.lines.drop f).take (i - f)) + ((0 : Nat) : Int) =
      findIndexOfFurthestColon ((s.lines.drop f).take (i - f)) := by simp
  have hzt : findIndexOfFurthestColon ((t.lines.drop f).take (i - f)) + ((0 : Nat) : Int) =
      findIndexOfFurthestColon ((t.lines.drop f).take (i - f)) := by simp
  rw [hzs] at hs1
  rw [hzt] at ht1
  have hlen : t.lines.length = s.lines.length := by
    rw [hlines]
    exact vaRun_lines_length tot 0 true (c2 + 1) i s (by omega) (fun _ => hl)
  have hpoint : ∀ j, f ≤ j → j ≤ i →
      t.lines.getD j [] =
        alignLine (findIndexOfFurthestColon ((s.lines.drop f).take (i - f))) true
          (s.lines.getD j []) := by
    intro j hfj hji
    rw [hlines, vaRun_succ, hs1]
    rw [vaRun_stab tot 0 true c2 (i + 1) _ j (by omega) (fun _ => rfl)
      (fun f2 hf2 => by cases hf2) (by rw [vaThresh_of_none _ _ rfl]; omega)]
    show (formatGroup s.lines f i _ true).getD j [] = _
    rw [formatGroup_getD, if_pos ⟨hfj, hji⟩]
  have hslice : (t.lines.drop f).take (i - f) =
      ((s.lines.drop f).take (i - f)).map
        (alignLine (findIndexOfFurthestColon ((s.lines.drop f).take (i - f))) true) := by
    apply va_eq_of_getD
    · rw [List.length_map, List.length_take, List.length_take, List.length_drop,
        List.length_drop, hlen]
    · intro j
      by_cases hj : j < i - f
      · rw [va_getD_take, if_pos hj, va_getD_drop,
          va_getD_map_alignLine _ (alignLine_nil _ _), va_getD_take, if_pos hj, va_getD_drop]
        exact hpoint (f + j) (by omega) (by omega)
      · rw [va_getD_take, if_neg hj,
          va_getD_map_alignLine _ (alignLine_nil _ _), va_getD_take, if_neg hj, alignLine_nil]
  have hFv2 : findIndexOfFurthestColon ((t.lines.drop f).take (i - f)) =
      findIndexOfFurthestColon ((s.lines.drop f).take (i - f)) := by
    rw [hslice, findIndexOfFurthestColon_map_alignLine]
  rw [hFv2] at ht1
  have hfix : formatGroup t.lines f i
      (findIndexOfFurthestColon ((s.lines.drop f).take (i - f))) true = t.lines := by
    apply va_eq_of_getD
    · rw [formatGroup_length]
    · intro j
      rw [formatGroup_getD]
      by_cases hj : f ≤ j ∧ j ≤ i
      · rw [if_pos hj, hpoint j hj.1 hj.2, alignLine_true_idem, ← hpoint j hj.1 hj.2]
      · rw [if_neg hj]
  rw [hfix] at ht1
  rw [vaRun_succ, ht1]
  have hfin := IH (i + 1)
    { lines := formatGroup s.lines f i
        (findIndexOfFurthestColon ((s.lines.drop f).take (i - f))) true,
      firstProperty := none, lastProperty := none,
      commentBlockEntered := s.commentBlockEntered,
      ignoreNextLine := s.ignoreNextLine }
    { lines := t.lines, firstProperty := none, lastProperty := none,
      commentBlockEntered := t.commentBlockEntered,
      ignoreNextLine := t.ignoreNextLine }
    (by omega) (fun _ => rfl) (fun f2 hf2 => by cases hf2) rfl rfl hcb hig
    (by rw [hlines, vaRun_succ, hs1])
  rw [hfin]

theorem vaRun_sim (tot : Nat) :
    ∀ (c i : Nat) (s t : VAState),
      i + c = tot →
      (c ≠ 0 → s.lastProperty = none) →
      (∀ f, s.firstProperty = some f → f ≤ i) →
      t.firstProperty = s.firstProperty →
      t.lastProperty = s.lastProperty →
      t.commentBlockEntered = s.commentBlockEntered →
      t.ignoreNextLine = s.ignoreNextLine →
      t.lines = (vaRun tot 0 true i c s).lines →
      (vaRun tot 0 true i c t).lines = t.lines := by
  intro c
  induction c with
  | zero => intro i s t _ _ _ _ _ _ _ _; rfl
  | succ c2 ih =>
    intro i s t htotal hlast hfb hf hlp hcb hig hlines
    have hl : s.lastProperty = none := hlast (by omega)
    have hcls : classif (t.lines.getD i []) = classif (s.lines.getD i []) := by
      rw [hlines]
      exact vaRun_pred tot 0 true
        (fun x => classif x = classif (s.lines.getD i []))
        (fun Fv x hx => by
          show classif (alignLine Fv true x) = classif (s.lines.getD i [])
          rw [classif_alignLine Fv x]
          exact hx)
        (c2 + 1) i s i (by omega) (fun _ => hl) rfl
    have e1 : isLineIgnoreLine (jsTrim (t.lines.getD i [])) =
        isLineIgnoreLine (jsTrim (s.lines.getD i [])) := by
      have := congrArg (fun q => q.1) hcls
      simpa [classif] using this
    have e2 : isLineCommentLine (jsTrim (t.lines.getD i [])) =
        isLineCommentLine (jsTrim (s.lines.getD i [])) := by
      have := congrArg (fun q => q.2.1) hcls
      simpa [classif] using this
    have e3 : containsSub ['*', '/'] (jsTrim (t.lines.getD i [])) =
        containsSub ['*', '/'] (jsTrim (s.lines.getD i [])) := by
      have := congrArg (fun q => q.2.2.1) hcls
      simpa [classif] using this
    have e4 : startsWithList (jsTrim (t.lines.getD i [])) ['/', '*'] =
        startsWithList (jsTrim (s.lines.getD i [])) ['/', '*'] := by
      have := congrArg (fun q => q.2.2.2.1) hcls
      simpa [classif] using this
    have e5 : isProperty (jsTrim (t.lines.getD i [])) =
        isProperty (jsTrim (s.lines.getD i [])) := by
      have := congrArg (fun q => q.2.2.2.2) hcls
      simpa [classif] using this
    cases hig_s : s.ignoreNextLine with
    | true =>
      have hig_t : t.ignoreNextLine = true := by rw [hig, hig_s]
      exact sim_step_helper tot c2 i s t _ _ ih
        (vaStep_ign tot 0 true s i hig_s) (vaStep_ign tot 0 true t i hig_t)
        (by omega) rfl hlines hf hlp hcb rfl
        (fun _ => hl) (fun f hf2 => le_trans (hfb f hf2) (by omega))
    | false =>
      have hig_t : t.ignoreNextLine = false := by rw [hig, hig_s]
      by_cases hm : isLineIgnoreLine (jsTrim (s.lines.getD i [])) = true
      · have hm_t : isLineIgnoreLine (jsTrim (t.lines.getD i [])) = true := by
          rw [e1, hm]
        exact sim_step_helper tot c2 i s t _ _ ih
          (vaStep_marker tot 0 true s i hig_s hm) (vaStep_marker tot 0 true t i hig_t hm_t)
          (by omega) rfl hlines hf hlp hcb rfl
          (fun _ => hl) (fun f hf2 => le_trans (hfb f hf2) (by omega))
      · have hm' : isLineIgnoreLine (jsTrim (s.lines.getD i [])) = false := by simpa using hm
        have hm_t : isLineIgnoreLine (jsTrim (t.lines.getD i [])) = false := by rw [e1, hm']
        by_cases hcm : isLineCommentLine (jsTrim (s.lines.getD i [])) = true
        · have hcm_t : isLineCommentLine (jsTrim (t.lines.getD i [])) = true := by
            rw [e2, hcm]
          exact sim_step_helper tot c2 i s t _ _ ih
            (vaStep_comment tot 0 true s i hig_s hm' hcm)
            (vaStep_comment tot 0 true t i hig_t hm_t hcm_t)
            (by omega) rfl hlines hf hlp hcb hig
            (fun _ => hl) (fun f hf2 => le_trans (hfb f hf2) (by omega))
        · have hcm' : isLineCommentLine (jsTrim (s.lines.getD i [])) = false := by
            simpa using hcm
          have hcm_t : isLineCommentLine (jsTrim (t.lines.getD i [])) = false := by
            rw [e2, hcm']
          by_cases hcs : containsSub ['*', '/'] (jsTrim (s.lines.getD i [])) = true
          · have hcs_t : containsSub ['*', '/'] (jsTrim (t.lines.getD i [])) = true := by
              rw [e3, hcs]
            exact sim_step_helper tot c2 i s t _ _ ih
              (vaStep_star tot 0 true s i hig_s hm' hcm' hcs)
              (vaStep_star tot 0 true t i hig_t hm_t hcm_t hcs_t)
              (by omega) rfl hlines hf hlp rfl hig
              (fun _ => hl) (fun f hf2 => le_trans (hfb f hf2) (by omega))
          · have hcs' : containsSub ['*', '/'] (jsTrim (s.lines.getD i [])) = false := by
              simpa using hcs
            have hcs_t : containsSub ['*', '/'] (jsTrim (t.lines.getD i [])) = false := by
              rw [e3, hcs']
            by_cases hbl : startsWithList (jsTrim (s.lines.getD i [])) ['/', '*'] = true ∨
                s.commentBlockEntered = true
            · have hbl_t : startsWithList (jsTrim (t.lines.getD i [])) ['/', '*'] = true ∨
                  t.commentBlockEntered = true := by
                rcases hbl with h | h
                · left; rw [e4, h]
                · right; rw [hcb, h]
              exact sim_step_helper tot c2 i s t _ _ ih
                (vaStep_block tot 0 true s i hig_s hm' hcm' hcs' hbl)
                (vaStep_block tot 0 true t i hig_t hm_t hcm_t hcs_t hbl_t)
                (by omega) rfl hlines hf hlp rfl hig
                (fun _ => hl) (fun f hf2 => le_trans (hfb f hf2) (by omega))
            · push_neg at hbl
              have hsw : startsWithList (jsTrim (s.lines.getD i [])) ['/', '*'] = false := by
                simpa using hbl.1
              have hcb_s : s.commentBlockEntered = false := by simpa using hbl.2
              have hsw_t : startsWithList (jsTrim (t.lines.getD i [])) ['/', '*'] = false := by
                rw [e4, hsw]
              have hcb_t : t.commentBlockEntered = false := by rw [hcb, hcb_s]
              by_cases hpr : isProperty (jsTrim (s.lines.getD i [])) = true
              · have hpr_t : isProperty (jsTrim (t.lines.getD i [])) = true := by
                  rw [e5, hpr]
                cases hfp : s.firstProperty with
                | none =>
                  have hfp_t : t.firstProperty = none := by rw [hf, hfp]
                  by_cases htix : tot - 1 = i
                  · exact vaRun_sim_close tot c2 i s t ih htotal hl hcb hig hlines
                      i (le_refl i)
                      (vaStep_close_eod_open tot 0 true s i hig_s hm' hcm' hcs' hsw hcb_s hpr hfp htix)
                      (vaStep_close_eod_open tot 0 true t i hig_t hm_t hcm_t hcs_t hsw_t hcb_t hpr_t hfp_t htix)
                  · exact sim_step_helper tot c2 i s t _ _ ih
                      (vaStep_open tot 0 true s i hig_s hm' hcm' hcs' hsw hcb_s hpr hfp hl htix)
                      (vaStep_open tot 0 true t i hig_t hm_t hcm_t hcs_t hsw_t hcb_t hpr_t hfp_t
                        (by rw [hlp, hl]) htix)
                      (by omega) rfl hlines rfl (by rw [hlp]) hcb hig
                      (fun _ => hl) (fun f hf2 => by simp at hf2; omega)
                | some f =>
                  have hfp_t : t.firstProperty = some f := by rw [hf, hfp]
                  by_cases htix : tot - 1 = i
                  · exact vaRun_sim_close tot c2 i s t ih htotal hl hcb hig hlines
                      f (hfb f hfp)
                      (vaStep_close_eod_prop tot 0 true s i f hig_s hm' hcm' hcs' hsw hcb_s hpr hfp htix)
                      (vaStep_close_eod_prop tot 0 true t i f hig_t hm_t hcm_t hcs_t hsw_t hcb_t hpr_t hfp_t htix)
                  · exact sim_step_helper tot c2 i s t _ _ ih
                      (vaStep_continue tot 0 true s i f hig_s hm' hcm' hcs' hsw hcb_s hpr hfp hl htix)
                      (vaStep_continue tot 0 true t i f hig_t hm_t hcm_t hcs_t hsw_t hcb_t hpr_t hfp_t
                        (by rw [hlp, hl]) htix)
                      (by omega) rfl hlines hf hlp hcb hig
                      (fun _ => hl)
                      (fun f2 hf2 => by
                        rw [hfp] at hf2
                        cases hf2
                        exact le_trans (hfb _ hfp) (by omega))
              · have hpr' : isProperty (jsTrim (s.lines.getD i [])) = false := by simpa using hpr
                have hpr_t : isProperty (jsTrim (t.lines.getD i [])) = false := by rw [e5, hpr']
                cases hfp : s.firstProperty with
                | none =>
                  have hfp_t : t.firstProperty = none := by rw [hf, hfp]
                  by_cases htix : tot - 1 = i
                  · exact sim_step_helper tot c2 i s t _ _ ih
                      (vaStep_eod_nofirst tot 0 true s i hig_s hm' hcm' hcs' hsw hcb_s hpr' hfp htix)
                      (vaStep_eod_nofirst tot 0 true t i hig_t hm_t hcm_t hcs_t hsw_t hcb_t hpr_t hfp_t htix)
                      (by omega) rfl hlines hf rfl hcb hig
                      (fun hc => by exfalso; omega)
                      (fun f2 hf2 => by rw [hfp] at hf2; cases hf2)
                  · exact sim_step_helper tot c2 i s t _ _ ih
                      (vaStep_nonprop_nofirst tot 0 true s i hig_s hm' hcm' hcs' hsw hcb_s hpr' hfp htix)
                      (vaStep_nonprop_nofirst tot 0 true t i hig_t hm_t hcm_t hcs_t hsw_t hcb_t hpr_t hfp_t htix)
                      (by omega) rfl hlines hf hlp hcb hig
                      (fun _ => hl) (fun f2 hf2 => by rw [hfp] at hf2; cases hf2)
                | some f =>
                  have hfp_t : t.firstProperty = some f := by rw [hf, hfp]
                  exact vaRun_sim_close tot c2 i s t ih htotal hl hcb hig hlines
                    f (hfb f hfp)
                    (vaStep_close_nonprop tot 0 true s i f hig_s hm' hcm' hcs' hsw hcb_s hpr' hfp)
                    (vaStep_close_nonprop tot 0 true t i f hig_t hm_t hcm_t hcs_t hsw_t hcb_t hpr_t hfp_t)

theorem verticalAlignLines_length (L : List (List Char)) (e : Nat) (ac : Bool) :
    (verticalAlignLines L e ac).length = L.length := by
  unfold verticalAlignLines
  exact vaRun_lines_length L.length e ac L.length 0 _ (by omega) (fun _ => rfl)

theorem verticalAlignLines_idem_zero_true (L : List (List Char)) :
    verticalAlignLines (verticalAlignLines L 0 true) 0 true =
      verticalAlignLines L 0 true := by
  have hlen : (verticalAlignLines L 0 true).length = L.length :=
    verticalAlignLines_length L 0 true
  show (vaRun (verticalAlignLines L 0 true).length 0 true 0
      (verticalAlignLines L 0 true).length
      { lines := verticalAlignLines L 0 true, firstProperty := none,
        lastProperty := none, commentBlockEntered := false,
        ignoreNextLine := false }).lines = verticalAlignLines L 0 true
  rw [hlen]
  exact vaRun_sim L.length L.length 0
    { lines := L, firstProperty := none, lastProperty := none,
      commentBlockEntered := false, ignoreNextLine := false }
    { lines := verticalAlignLines L 0 true, firstProperty := none,
      lastProperty := none, commentBlockEntered := false, ignoreNextLine := false }
    (by omega) (fun _ => rfl) (fun f hf => by cases hf) rfl rfl rfl rfl rfl

/-! ## Splitting and joining newlines -/

theorem splitNewline_ne_nil (s : List Char) : splitNewline s ≠ [] := by
  cases s with
  | nil => simp [splitNewline]
  | cons c rest =>
    by_cases hc : c = '\n'
    · simp [splitNewline, hc]
    · simp only [splitNewline, hc, if_false]
      cases h : splitNewline rest <;> simp

theorem splitNewline_no_newline (s : List Char) :
    ∀ l ∈ splitNewline s, '\n' ∉ l := by
  induction s with
  | nil => intro l hl; simp [splitNewline] at hl; simp [hl]
  | cons c rest ih =>
    intro l hl
    by_cases hc : c = '\n'
    · simp only [splitNewline, hc, if_true, List.mem_cons] at hl
      rcases hl with rfl | hl
      · simp
      · exact ih l hl
    · simp only [splitNewline, hc, if_false] at hl
      cases h : splitNewline rest with
      | nil => exact absurd h (splitNewline_ne_nil rest)
      | cons x xs =>
        rw [h] at hl
        rcases List.mem_cons.mp hl with rfl | hl2
        · intro hmem
          rcases List.mem_cons.mp hmem with h1 | h1
          · exact hc h1.symm
          · have hx : x ∈ splitNewline rest := by rw [h]; exact List.mem_cons_self x xs
            exact ih x hx h1
        · have : l ∈ splitNewline rest := by rw [h]; exact List.mem_cons_of_mem x hl2
          exact ih l this

theorem splitNewline_of_no_newline (l : List Char) (h : '\n' ∉ l) :
    splitNewline l = [l] := by
  induction l with
  | nil => rfl
  | cons c rest ih =>
    simp only [List.mem_cons, not_or] at h
    have hc : ¬ c = '\n' := fun hcc => h.1 hcc.symm
    simp only [splitNewline, hc, if_false]
    rw [ih h.2]

theorem splitNewline_append (l r : List Char) (h : '\n' ∉ l) :
    splitNewline (l ++ '\n' :: r) = l :: splitNewline r := by
  induction l with
  | nil => simp [splitNewline]
  | cons c rest ih =>
    simp only [List.mem_cons, not_or] at h
    have hc : ¬ c = '\n' := fun hcc => h.1 hcc.symm
    simp only [List.cons_append, splitNewline, hc, if_false, List.append_eq]
    rw [ih h.2]

theorem splitNewline_joinNewline (ls : List (List Char)) (hne : ls ≠ [])
    (h : ∀ l ∈ ls, '\n' ∉ l) : splitNewline (joinNewline ls) = ls := by
  induction ls with
  | nil => exact absurd rfl hne
  | cons l rest ih =>
    cases rest with
    | nil =>
      show splitNewline (joinNewline [l]) = [l]
      unfold joinNewline
      exact splitNewline_of_no_newline l (h l (List.mem_cons_self l []))
    | cons l2 rest2 =>
      show splitNewline (l ++ '\n' :: joinNewline (l2 :: rest2)) = l :: l2 :: rest2
      rw [splitNewline_append l _ (h l (List.mem_cons_self l _))]
      rw [ih (by simp) (fun x hx => h x (List.mem_cons_of_mem l hx))]

theorem mem_replaceFirstColon (l ins : List Char) (d : Char)
    (h : d ∈ replaceFirstColon l ins) : d ∈ l ∨ d ∈ ins := by
  induction l with
  | nil => simp [replaceFirstColon] at h
  | cons c cs ih =>
    by_cases hc : c = ':'
    · subst hc
      have hr : replaceFirstColon (':' :: cs) ins = ins ++ cs := by
        simp [replaceFirstColon]
      rw [hr] at h
      rcases List.mem_append.mp h with h | h
      · right; exact h
      · left; exact List.mem_cons_of_mem _ h
    · simp only [replaceFirstColon, hc, if_false, List.mem_cons] at h
      rcases h with rfl | h
      · left; exact List.mem_cons_self _ _
      · rcases ih h with h2 | h2
        · left; exact List.mem_cons_of_mem _ h2
        · right; exact h2

theorem alignLine_no_newline (F : Int) (ac : Bool) (l : List Char)
    (h : '\n' ∉ l) : '\n' ∉ alignLine F ac l := by
  rw [alignLine_eq]
  split
  · intro hmem
    unfold insertExtraSpaces at hmem
    cases ac <;> simp only [Bool.false_eq_true, if_false, if_true] at hmem
    · rcases mem_replaceFirstColon _ _ _ hmem with h2 | h2
      · exact h h2
      · rcases List.mem_cons.mp h2 with h3 | h3
        · cases h3
        · exact absurd (List.eq_of_mem_replicate h3) (by decide)
    · rcases mem_replaceFirstColon _ _ _ hmem with h2 | h2
      · exact h h2
      · rcases List.mem_append.mp h2 with h3 | h3
        · exact absurd (List.eq_of_mem_replicate h3) (by decide)
        · rcases List.mem_cons.mp h3 with h4 | h4
          · cases h4
          · simp at h4
  · exact h

theorem verticalAlignLines_no_newline (L : List (List Char)) (e : Nat) (ac : Bool)
    (h : ∀ l ∈ L, '\n' ∉ l) : ∀ l ∈ verticalAlignLines L e ac, '\n' ∉ l := by
  intro l hl
  obtain ⟨j, hj, rfl⟩ := List.mem_iff_getElem.mp hl
  rw [← List.getD_eq_getElem (verticalAlignLines L e ac) [] hj]
  show '\n' ∉ (vaRun L.length e ac 0 L.length
    { lines := L, firstProperty := none, lastProperty := none,
      commentBlockEntered := false, ignoreNextLine := false }).lines.getD j []
  refine vaRun_pred L.length e ac (fun x => '\n' ∉ x)
    (fun Fv x hx => alignLine_no_newline Fv ac x hx) L.length 0 _ j
    (by omega) (fun _ => rfl) ?_
  by_cases hjl : j < L.length
  · rw [List.getD_eq_getElem L [] hjl]
    exact h _ (List.getElem_mem hjl)
  · rw [List.getD_eq_default L [] (by omega)]
    simp

theorem verticalAlign_idem_zero_true (css : List Char) :
    verticalAlign (verticalAlign css 0 true) 0 true = verticalAlign css 0 true := by
  unfold verticalAlign
  have hlen := verticalAlignLines_length (splitNewline css) 0 true
  have hne : verticalAlignLines (splitNewline css) 0 true ≠ [] := by
    intro hnil
    apply splitNewline_ne_nil css
    rw [hnil] at hlen
    exact List.length_eq_zero.mp hlen.symm
  have hnn : ∀ l ∈ verticalAlignLines (splitNewline css) 0 true, '\n' ∉ l :=
    verticalAlignLines_no_newline _ 0 true (splitNewline_no_newline css)
  rw [splitNewline_joinNewline _ hne hnn, verticalAlignLines_idem_zero_true]

/-! ## Behaviour on unterminated block comments -/

theorem startsWith_slashstar_not_comment (T : List Char)
    (h : startsWithList T ['/', '*'] = true) :
    startsWithList T ['/', '/'] = false := by
  cases T with
  | nil => simp [startsWithList] at h
  | cons c T2 =>
    cases T2 with
    | nil => simp [startsWithList] at h
    | cons d T3 =>
      simp only [startsWithList, Bool.and_eq_true, decide_eq_true_eq] at h
      obtain ⟨rfl, h2, _⟩ := h
      simp only [startsWithList, startsWithList_nil_pat, Bool.and_true]
      simp [h2]

theorem vaStep_ign_source (tot e : Nat) (ac : Bool) (s : VAState) (i : Nat)
    (h : (vaStep tot e ac s i).ignoreNextLine = true) :
    isLineIgnoreLine (jsTrim (s.lines.getD i [])) = true := by
  by_cases hig : s.ignoreNextLine = true
  · rw [vaStep_ign tot e ac s i hig] at h
    simp at h
  · have hig' : s.ignoreNextLine = false := by simpa using hig
    by_cases hm : isLineIgnoreLine (jsTrim (s.lines.getD i [])) = true
    · exact hm
    · exfalso
      have hm' : isLineIgnoreLine (jsTrim (s.lines.getD i [])) = false := by simpa using hm
      simp only [vaStep, hig', hm'] at h
      split at h
      · simp at h
      · split at h
        · simp [hig'] at h
        · split at h
          · simp [hig'] at h
          · split at h
            · simp [hig'] at h
            · split at h <;> simp [hig'] at h

theorem vaRun_last_none (tot e : Nat) (ac : Bool) :
    ∀ (c i : Nat) (s : VAState), i + c < tot → s.lastProperty = none →
      (vaRun tot e ac i c s).lastProperty = none := by
  intro c
  induction c with
  | zero => intro i s _ h; exact h
  | succ c2 ih =>
    intro i s hlt hl
    rw [vaRun_succ]
    exact ih (i + 1) (vaStep tot e ac s i) (by omega)
      (vaStep_last_none tot e ac s i hl (by omega))

theorem vaRun_block_frozen (tot e : Nat) (ac : Bool) :
    ∀ (c m : Nat) (u : VAState), u.commentBlockEntered = true →
      (∀ j, m ≤ j → containsSub ['*', '/'] (jsTrim (u.lines.getD j [])) = false) →
      (vaRun tot e ac m c u).lines = u.lines := by
  intro c
  induction c with
  | zero => intro m u _ _; rfl
  | succ c2 ih =>
    intro m u hcb hstar
    rw [vaRun_succ]
    by_cases hig : u.ignoreNextLine = true
    · rw [vaStep_ign tot e ac u m hig]
      exact ih (m + 1) _ hcb (fun j hj => hstar j (by omega))
    · have hig' : u.ignoreNextLine = false := by simpa using hig
      by_cases hm : isLineIgnoreLine (jsTrim (u.lines.getD m [])) = true
      · rw [vaStep_marker tot e ac u m hig' hm]
        exact ih (m + 1) _ hcb (fun j hj => hstar j (by omega))
      · have hm' : isLineIgnoreLine (jsTrim (u.lines.getD m [])) = false := by simpa using hm
        by_cases hcm : isLineCommentLine (jsTrim (u.lines.getD m [])) = true
        · rw [vaStep_comment tot e ac u m hig' hm' hcm]
          exact ih (m + 1) _ hcb (fun j hj => hstar j (by omega))
        · have hcm' : isLineCommentLine (jsTrim (u.lines.getD m [])) = false := by
            simpa using hcm
          rw [vaStep_block tot e ac u m hig' hm' hcm' (hstar m (le_refl m)) (Or.inr hcb)]
          exact ih (m + 1) _ rfl (fun j hj => hstar j (by omega))

theorem getD_ne_nil_lt_length (L : List (List Char)) (k : Nat)
    (h : L.getD k [] ≠ []) : k < L.length := by
  by_contra hk
  rw [List.getD_eq_default L [] (by omega)] at h
  exact h rfl

theorem init_run_ign_false (tot e : Nat) (ac : Bool) (L : List (List Char))
    (k : Nat) (hk : k ≤ tot)
    (hprev : k = 0 ∨ isLineIgnoreLine (L.getD (k - 1) []) = false) :
    (vaRun tot e ac 0 k
      { lines := L, firstProperty := none, lastProperty := none,
        commentBlockEntered := false, ignoreNextLine := false }).ignoreNextLine = false := by
  cases k with
  | zero => rfl
  | succ k2 =>
    cases hi : (vaRun tot e ac 0 (k2 + 1)
        { lines := L, firstProperty := none, lastProperty := none,
          commentBlockEntered := false, ignoreNextLine := false }).ignoreNextLine with
    | false => rfl
    | true =>
      exfalso
      rw [vaRun_append tot e ac k2 1 0 _, vaRun_succ, vaRun_zero] at hi
      have hsrc := vaStep_ign_source tot e ac _ _ hi
      have hraw2 := vaRun_raw tot e ac k2 0
        { lines := L, firstProperty := none, lastProperty := none,
          commentBlockEntered := false, ignoreNextLine := false }
        (0 + k2) (by omega) (fun _ => rfl) (by omega)
      rw [hraw2] at hsrc
      rw [isLineIgnoreLine_jsTrim] at hsrc
      rcases hprev with h0 | h0
      · exact absurd h0 (by omega)
      · have he : k2 + 1 - 1 = k2 := rfl
        rw [he] at h0
        rw [show (0 + k2) = k2 from by omega] at hsrc
        rw [h0] at hsrc
        cases hsrc

theorem unterminated_frame (L : List (List Char)) (e : Nat) (ac : Bool) (k : Nat)
    (hop : startsWithList (jsTrim (L.getD k [])) ['/', '*'] = true)
    (hnostar : ∀ j, k ≤ j → containsSub ['*', '/'] (jsTrim (L.getD j [])) = false)
    (hprev : k = 0 ∨ isLineIgnoreLine (L.getD (k - 1) []) = false) :
    ∀ j, k ≤ j → (verticalAlignLines L e ac).getD j [] = L.getD j [] := by
  intro j hj
  have hkl : k < L.length := by
    apply getD_ne_nil_lt_length
    intro hnil
    rw [hnil] at hop
    have hh : jsTrim ([] : List Char) = [] := rfl
    rw [hh] at hop
    simp [startsWithList] at hop
  show (vaRun L.length e ac 0 L.length
    { lines := L, firstProperty := none, lastProperty := none,
      commentBlockEntered := false, ignoreNextLine := false }).lines.getD j [] = L.getD j []
  have hsplit := vaRun_append L.length e ac k (L.length - k) 0
    { lines := L, firstProperty := none, lastProperty := none,
      commentBlockEntered := false, ignoreNextLine := false }
  rw [show k + (L.length - k) = L.length from by omega, Nat.zero_add] at hsplit
  rw [hsplit]
  set sk := vaRun L.length e ac 0 k
    { lines := L, firstProperty := none, lastProperty := none,
      commentBlockEntered := false, ignoreNextLine := false } with hsk
  have hraw : ∀ j2, k ≤ j2 → sk.lines.getD j2 [] = L.getD j2 [] := by
    intro j2 hj2
    exact vaRun_raw L.length e ac k 0 _ j2 (by omega) (fun _ => rfl) (by omega)
  have hign : sk.ignoreNextLine = false :=
    init_run_ign_false L.length e ac L k (by omega) hprev
  have hcomk : isLineCommentLine (jsTrim (L.getD k [])) = false := by
    unfold isLineCommentLine
    rw [jsTrim_idem]
    exact startsWith_slashstar_not_comment _ hop
  have hmk : isLineIgnoreLine (jsTrim (L.getD k [])) = false :=
    ignore_false_of_comment_false _ hcomk
  have hsplit2 := vaRun_append L.length e ac 1 (L.length - k - 1) k sk
  rw [show 1 + (L.length - k - 1) = L.length - k from by omega] at hsplit2
  rw [hsplit2]
  rw [show vaRun L.length e ac k 1 sk = vaStep L.length e ac sk k from rfl]
  have hmark : isLineIgnoreLine (jsTrim (sk.lines.getD k [])) = false := by
    rw [hraw k (le_refl k)]; exact hmk
  have hcomm : isLineCommentLine (jsTrim (sk.lines.getD k [])) = false := by
    rw [hraw k (le_refl k)]; exact hcomk
  have hstar : containsSub ['*', '/'] (jsTrim (sk.lines.getD k [])) = false := by
    rw [hraw k (le_refl k)]; exact hnostar k (le_refl k)
  have hsw : startsWithList (jsTrim (sk.lines.getD k [])) ['/', '*'] = true := by
    rw [hraw k (le_refl k)]; exact hop
  rw [vaStep_block L.length e ac sk k hign hmark hcomm hstar (Or.inl hsw)]
  rw [vaRun_block_frozen L.length e ac (L.length - k - 1) (k + 1) _ rfl ?hfr]
  · show sk.lines.getD j [] = L.getD j []
    exact hraw j hj
  case hfr =>
    intro j2 hj2
    show containsSub ['*', '/'] (jsTrim (sk.lines.getD j2 [])) = false
    rw [hraw j2 (by omega)]
    exact hnostar j2 (by omega)

/-! ## Ignore marker at the start of the document -/

theorem marker_first_frame (L : List (List Char)) (e : Nat) (ac : Bool)
    (hm : isLineIgnoreLine (L.getD 0 []) = true) :
    (verticalAlignLines L e ac).getD 0 [] = L.getD 0 [] ∧
    (verticalAlignLines L e ac).getD 1 [] = L.getD 1 [] := by
  have hne : L.getD 0 [] ≠ [] := by
    intro hnil
    rw [hnil] at hm
    have hh : isLineIgnoreLine ([] : List Char) = false := rfl
    rw [hh] at hm
    cases hm
  have h0L : 0 < L.length := getD_ne_nil_lt_length L 0 hne
  have hmt : isLineIgnoreLine (jsTrim (L.getD 0 [])) = true := by
    rw [isLineIgnoreLine_jsTrim]; exact hm
  show (vaRun L.length e ac 0 L.length
    { lines := L, firstProperty := none, lastProperty := none,
      commentBlockEntered := false, ignoreNextLine := false }).lines.getD 0 [] = L.getD 0 [] ∧
    (vaRun L.length e ac 0 L.length
    { lines := L, firstProperty := none, lastProperty := none,
      commentBlockEntered := false, ignoreNextLine := false }).lines.getD 1 [] = L.getD 1 []
  have hm0 : vaStep L.length e ac
      { lines := L, firstProperty := none, lastProperty := none,
        commentBlockEntered := false, ignoreNextLine := false } 0 =
      { lines := L, firstProperty := none, lastProperty := none,
        commentBlockEntered := false, ignoreNextLine := true } :=
    vaStep_marker L.length e ac
      { lines := L, firstProperty := none, lastProperty := none,
        commentBlockEntered := false, ignoreNextLine := false } 0 rfl hmt
  rcases Nat.lt_or_ge L.length 2 with hlen | hlen
  · have h1 : L.length = 1 := by omega
    rw [h1] at hm0 ⊢
    rw [vaRun_succ, vaRun_zero, hm0]
    exact ⟨rfl, rfl⟩
  · have hi1 : vaStep L.length e ac
        { lines := L, firstProperty := none, lastProperty := none,
          commentBlockEntered := false, ignoreNextLine := true } 1 =
        { lines := L, firstProperty := none, lastProperty := none,
          commentBlockEntered := false, ignoreNextLine := false } :=
      vaStep_ign L.length e ac
        { lines := L, firstProperty := none, lastProperty := none,
          commentBlockEntered := false, ignoreNextLine := true } 1 rfl
    have hsplit := vaRun_append L.length e ac 2 (L.length - 2) 0
      { lines := L, firstProperty := none, lastProperty := none,
        commentBlockEntered := false, ignoreNextLine := false }
    rw [show 2 + (L.length - 2) = L.length from by omega, Nat.zero_add] at hsplit
    rw [hsplit, vaRun_succ, vaRun_succ, vaRun_zero, hm0, hi1]
    constructor
    · exact vaRun_stab L.length e ac (L.length - 2) 2
        { lines := L, firstProperty := none, lastProperty := none,
          commentBlockEntered := false, ignoreNextLine := false } 0 (by omega)
        (fun _ => rfl) (fun f hf => by cases hf) (by rw [vaThresh_of_none _ _ rfl]; omega)
    · exact vaRun_stab L.length e ac (L.length - 2) 2
        { lines := L, firstProperty := none, lastProperty := none,
          commentBlockEntered := false, ignoreNextLine := false } 1 (by omega)
        (fun _ => rfl) (fun f hf => by cases hf) (by rw [vaThresh_of_none _ _ rfl]; omega)

/-! ## Documents consisting solely of property lines -/

theorem plainPropertyLine_parts (l : List Char) (h : plainPropertyLine l = true) :
    isProperty (jsTrim l) = true ∧ isLineCommentLine (jsTrim l) = false ∧
    containsSub ['*', '/'] (jsTrim l) = false ∧
    startsWithList (jsTrim l) ['/', '*'] = false ∧
    isLineIgnoreLine (jsTrim l) = false := by
  unfold plainPropertyLine at h
  simp only [Bool.and_eq_true, Bool.not_eq_true'] at h
  obtain ⟨⟨⟨h1, h2⟩, h3⟩, h4⟩ := h
  have h2t : isLineCommentLine (jsTrim l) = false := by
    rw [isLineCommentLine_jsTrim]; exact h2
  exact ⟨h1, h2t, h3, h4, ignore_false_of_comment_false _ h2t⟩

theorem getD_mem_of_lt (L : List (List Char)) (j : Nat) (h : j < L.length) :
    L.getD j [] ∈ L := by
  rw [List.getD_eq_getElem L [] h]
  exact List.getElem_mem h

theorem allprop_aux (L : List (List Char)) (e : Nat) (ac : Bool)
    (hall : ∀ l ∈ L, plainPropertyLine l = true) :
    ∀ (c i : Nat), i + c = L.length → 1 ≤ i → 1 ≤ c →
      (vaRun L.length e ac i c
        { lines := L, firstProperty := some 0, lastProperty := none,
          commentBlockEntered := false, ignoreNextLine := false }).lines =
      formatGroup L 0 (L.length - 1)
        (findIndexOfFurthestColon (L.take (L.length - 1)) + (e : Int)) ac := by
  intro c
  induction c with
  | zero => intro i _ _ hc; omega
  | succ c2 ih =>
    intro i hic hi hc
    have hiL : i < L.length := by omega
    obtain ⟨hprop, hcom, hstar, hsw, hmark⟩ :=
      plainPropertyLine_parts (L.getD i []) (hall _ (getD_mem_of_lt L i hiL))
    cases c2 with
    | zero =>
      have htix : L.length - 1 = i := by omega
      have hcl := vaStep_close_eod_prop L.length e ac
        { lines := L, firstProperty := some 0, lastProperty := none,
          commentBlockEntered := false, ignoreNextLine := false } i 0
        rfl hmark hcom hstar hsw rfl hprop rfl htix
      rw [vaRun_succ, hcl, vaRun_zero]
      show formatGroup L 0 i
        (findIndexOfFurthestColon ((L.drop 0).take (i - 0)) + (e : Int)) ac = _
      rw [List.drop_zero, Nat.sub_zero, htix.symm]
    | succ c3 =>
      have htix : ¬ L.length - 1 = i := by omega
      have hco := vaStep_continue L.length e ac
        { lines := L, firstProperty := some 0, lastProperty := none,
          commentBlockEntered := false, ignoreNextLine := false } i 0
        rfl hmark hcom hstar hsw rfl hprop rfl rfl htix
      rw [vaRun_succ, hco]
      exact ih (i + 1) (by omega) (by omega) (by omega)

theorem allprop_run (L : List (List Char)) (e : Nat) (ac : Bool)
    (hne : L ≠ []) (hall : ∀ l ∈ L, plainPropertyLine l = true) :
    verticalAlignLines L e ac =
      formatGroup L 0 (L.length - 1)
        (findIndexOfFurthestColon (L.take (L.length - 1)) + (e : Int)) ac := by
  have h0L : 0 < L.length := List.length_pos.mpr hne
  obtain ⟨hprop, hcom, hstar, hsw, hmark⟩ :=
    plainPropertyLine_parts (L.getD 0 []) (hall _ (getD_mem_of_lt L 0 h0L))
  show (vaRun L.length e ac 0 L.length
    { lines := L, firstProperty := none, lastProperty := none,
      commentBlockEntered := false, ignoreNextLine := false }).lines = _
  rcases Nat.lt_or_ge L.length 2 with hlen | hlen
  · have h1 : L.length = 1 := by omega
    have hcl := vaStep_close_eod_open L.length e ac
      { lines := L, firstProperty := none, lastProperty := none,
        commentBlockEntered := false, ignoreNextLine := false } 0
      rfl hmark hcom hstar hsw rfl hprop rfl (by omega)
    rw [h1] at hcl ⊢
    rw [vaRun_succ, vaRun_zero, hcl]
    show formatGroup L 0 0
      (findIndexOfFurthestColon ((L.drop 0).take (0 - 0)) + (e : Int)) ac = _
    rw [List.drop_zero, Nat.sub_zero, List.take_zero]
  · have hop2 := vaStep_open L.length e ac
      { lines := L, firstProperty := none, lastProperty := none,
        commentBlockEntered := false, ignoreNextLine := false } 0
      rfl hmark hcom hstar hsw rfl hprop rfl rfl (by omega)
    have hsplit := vaRun_append L.length e ac 1 (L.length - 1) 0
      { lines := L, firstProperty := none, lastProperty := none,
        commentBlockEntered := false, ignoreNextLine := false }
    rw [show 1 + (L.length - 1) = L.length from by omega, Nat.zero_add] at hsplit
    rw [hsplit, vaRun_succ, vaRun_zero, hop2]
    exact allprop_aux L e ac hall (L.length - 1) 1 (by omega) (by omega) (by omega)

theorem slice_colon_le (L : List (List Char)) (f l j : Nat)
    (hfj : f ≤ j) (hjl : j < l) (hjL : j < L.length) :
    jsIndexOf ':' (L.getD j []) ≤ findIndexOfFurthestColon ((L.drop f).take (l - f)) := by
  apply findIndexOfFurthestColon_ge
  have hg : ((L.drop f).take (l - f)).getD (j - f) [] = L.getD j [] := by
    rw [va_getD_take, if_pos (by omega), va_getD_drop,
      show f + (j - f) = j from by omega]
  have hlt : j - f < ((L.drop f).take (l - f)).length := by
    rw [List.length_take, List.length_drop]
    omega
  rw [← hg]
  exact getD_mem_of_lt _ _ hlt

/-! ## Claims -/

/-- C1 counterexample: in the document
`a: 1; / // formate-ignore / bb: 2; / cccc: 3; / closing brace`, the line
`bb: 2;` is immediately preceded by an ignore-marker line, yet the output
of `verticalAlign` rewrites it (it lies inside the closed group's span
`[0,4]` and the rewrite loop does not consult the ignore flag), so it is
not returned byte-for-byte unmodified. -/
theorem claim_C1_counterexample :
    isLineIgnoreLine (("// formate-ignore").toList) = true ∧
    (verticalAlignLines [("a: 1;").toList, ("// formate-ignore").toList,
      ("bb: 2;").toList, ("cccc: 3;").toList, ("\x7d").toList] 0 true).getD 2 [] ≠
      ("bb: 2;").toList := by decide

/-- C1 (amended): an ignore marker makes the scanner skip the next line
entirely — the skipped iteration only clears the flag and never opens,
extends, or closes a group; in particular, when the marker is the first
line of the document, the marker line and the ignored line after it are
returned byte-for-byte unmodified.  (The claim's original universal form
is false: an ignored line lying strictly inside a group's rewritten span
is included in the furthest-colon computation and rewritten like any
member, as the counterexample shows.) -/
theorem claim_C1 :
    (∀ (tot e : Nat) (ac : Bool) (s : VAState) (i : Nat),
      s.ignoreNextLine = true →
      vaStep tot e ac s i = { s with ignoreNextLine := false }) ∧
    (∀ (L : List (List Char)) (e : Nat) (ac : Bool),
      isLineIgnoreLine (L.getD 0 []) = true →
      (verticalAlignLines L e ac).getD 0 [] = L.getD 0 [] ∧
      (verticalAlignLines L e ac).getD 1 [] = L.getD 1 []) :=
  ⟨vaStep_ign, marker_first_frame⟩

/-- C1 witness: the amended theorem applied to the repository's own test
document shape (marker first, `display: flex;` second). -/
theorem claim_C1_witness :
    isLineIgnoreLine (("// formate-ignore").toList) = true ∧
    (verticalAlignLines [("// formate-ignore").toList, ("display: flex;").toList,
      ("color: red;").toList, ("background-color: green;").toList, ("\x7d").toList]
      0 true).getD 1 [] = ("display: flex;").toList :=
  ⟨by decide,
   (claim_C1.2 [("// formate-ignore").toList, ("display: flex;").toList,
      ("color: red;").toList, ("background-color: green;").toList, ("\x7d").toList]
      0 true (by decide)).2⟩

/-- C2 counterexample: with `alignColon = false` the rewrite pads after
the colon, so the padded line's colon offset is unchanged and a second
run pads it again: `verticalAlign` is not idempotent for every
configuration. -/
theorem claim_C2_counterexample :
    verticalAlign (verticalAlign (("a: 1;\nbbb: 2;\n\x7d").toList) 0 false) 0 false ≠
      verticalAlign (("a: 1;\nbbb: 2;\n\x7d").toList) 0 false := by decide

/-- C2 (amended): with `additionalSpaces = 0` and `alignColon = true`,
applying `verticalAlign` to its own output returns that output unchanged
for every input document.  (The claim's quantification over every
extra-space count and both alignment sides is false: `additionalSpaces > 0`
re-adds the extra padding on every run, and `alignColon = false` pads
after the colon without moving it, so a second run pads again — see the
counterexample.) -/
theorem claim_C2 (css : List Char) :
    verticalAlign (verticalAlign css 0 true) 0 true = verticalAlign css 0 true :=
  verticalAlign_idem_zero_true css

/-- C3 counterexample: in the all-property document
`[a: 1;, bbbb: 2;]` the single group is closed at end of document, the
slice passed to `findIndexOfFurthestColon` excludes the last line, so the
resolved column is 1 and nothing is rewritten: the two property lines of
the group keep colon offsets 1 and 4, which cannot both equal the group's
resolved target column. -/
theorem claim_C3_counterexample :
    isProperty (jsTrim (("a: 1;").toList)) = true ∧
    isProperty (jsTrim (("bbbb: 2;").toList)) = true ∧
    verticalAlignLines [("a: 1;").toList, ("bbbb: 2;").toList] 0 true =
      [("a: 1;").toList, ("bbbb: 2;").toList] ∧
    jsIndexOf ':' (("a: 1;").toList) = 1 ∧
    jsIndexOf ':' (("bbbb: 2;").toList) = 4 := by decide

/-- C3 (amended): for `alignColon = true`, after the group-formatting
loop every non-comment colon-bearing line strictly inside the group's
slice `[f, l)` has its colon exactly at the resolved target column
(the furthest colon of the slice plus the configured extra spaces).  The
line at the closing index `l` is excluded from the slice — when a group
is closed at end of document its last line does not contribute to the
column computation, as the counterexample shows. -/
theorem claim_C3 (L : List (List Char)) (f l extra j : Nat)
    (hfj : f ≤ j) (hjl : j < l) (hjL : j < L.length)
    (hcom : isLineCommentLine (L.getD j []) = false)
    (hcol : 0 ≤ jsIndexOf ':' (L.getD j [])) :
    jsIndexOf ':' ((formatGroup L f l
      (findIndexOfFurthestColon ((L.drop f).take (l - f)) + (extra : Int)) true).getD j []) =
      findIndexOfFurthestColon ((L.drop f).take (l - f)) + (extra : Int) := by
  rw [formatGroup_getD, if_pos ⟨hfj, le_of_lt hjl⟩, jsIndexOf_alignLine_true]
  have hle := slice_colon_le L f l j hfj hjl hjL
  by_cases hlt : jsIndexOf ':' (L.getD j []) <
      findIndexOfFurthestColon ((L.drop f).take (l - f)) + (extra : Int)
  · rw [if_pos ⟨hcol, hlt, hcom⟩]
  · rw [if_neg (fun hcon => hlt hcon.2.1)]
    omega

/-- C3 witness: the amended theorem applied to the group slice
`[a: 1;, bbb: 2;]` with closing index 2 and no extra spaces. -/
theorem claim_C3_witness :
    (0 : Nat) ≤ 0 ∧ (0 : Nat) < 2 ∧
    (0 : Nat) < ([("a: 1;").toList, ("bbb: 2;").toList, ("\x7d").toList]).length ∧
    isLineCommentLine ((["a: 1;".toList, "bbb: 2;".toList, "\x7d".toList] : List (List Char)).getD 0 []) = false ∧
    jsIndexOf ':' ((formatGroup [("a: 1;").toList, ("bbb: 2;").toList, ("\x7d").toList] 0 2
      (findIndexOfFurthestColon (((["a: 1;".toList, "bbb: 2;".toList, "\x7d".toList] : List (List Char)).drop 0).take (2 - 0)) + ((0 : Nat) : Int)) true).getD 0 []) =
      findIndexOfFurthestColon (((["a: 1;".toList, "bbb: 2;".toList, "\x7d".toList] : List (List Char)).drop 0).take (2 - 0)) + ((0 : Nat) : Int) :=
  ⟨le_refl 0, by omega, by decide, by decide,
   claim_C3 [("a: 1;").toList, ("bbb: 2;").toList, ("\x7d").toList] 0 2 0 0
     (by omega) (by omega) (by decide) (by decide) (by decide)⟩

/-- C4 counterexample, refuting both parts of the claim.  First, the
non-property terminator `a:hover \x7b` closes the group opened by the two
property lines before it, yet because the rewrite loop runs over the
inclusive span `[firstProperty, lastProperty]` and only skips
`//`-comment lines, the terminator's own colon (offset 1, less than the
resolved column) gets padded.  Second, the colon-bearing block-comment
line `/*x: 0*/` lying inside a group's span (it is skipped by the
scanner's `*/` branch, so the group stays open around it) is not a
`//`-comment line either, so the rewrite loop pads it too: neither line
is returned as it appeared in the input. -/
theorem claim_C4_counterexample :
    (isProperty (jsTrim (("a:hover \x7b").toList)) = false ∧
      (0 : Int) ≤ jsIndexOf ':' (("a:hover \x7b").toList) ∧
      (verticalAlignLines [("a: 1;").toList, ("bbb: 2;").toList,
        ("a:hover \x7b").toList] 0 true).getD 2 [] ≠ ("a:hover \x7b").toList) ∧
    (isLineCommentLine (jsTrim (("/*x: 0*/").toList)) = false ∧
      containsSub ['*', '/'] (jsTrim (("/*x: 0*/").toList)) = true ∧
      (verticalAlignLines [("aaaaaa: 1;").toList, ("/*x: 0*/").toList,
        ("b: 2;").toList, ("\x7d").toList] 0 true).getD 1 [] ≠
        ("/*x: 0*/").toList) := by decide

/-- C4 (amended): a line whose trimmed content starts with `//` (an
`isLineCommentLine`, the only kind of line the rewrite loop skips), or a
line containing no colon at all, is returned by verticalAlign exactly as
it appeared in the input, whatever its position.  (The claim's full
statement is false, and no wider class of comment lines is protected: the
rewrite loop runs over the inclusive span `[firstProperty, lastProperty]`
and skips only `//`-comment lines, so both a colon-bearing non-property
terminator that closes a group and a colon-bearing `/*...*/` line inside
a group's span are padded when their colon offset is below the resolved
column, as the counterexample shows.) -/
theorem claim_C4 (L : List (List Char)) (e : Nat) (ac : Bool) (j : Nat)
    (h : isLineCommentLine (L.getD j []) = true ∨ ':' ∉ L.getD j []) :
    (verticalAlignLines L e ac).getD j [] = L.getD j [] := by
  unfold verticalAlignLines
  refine vaRun_pred L.length e ac (fun x => x = L.getD j []) ?_ L.length 0 _ j
    (by omega) (fun _ => rfl) rfl
  intro Fv x hx
  subst hx
  rcases h with h | h
  · exact alignLine_of_comment Fv ac _ h
  · exact alignLine_of_no_colon Fv ac _ h

/-- C4 witness: the amended theorem applied to a closing-brace line (no
colon) sitting after a property line. -/
theorem claim_C4_witness :
    (isLineCommentLine (([("a: 1;").toList, ("\x7d").toList] :
        List (List Char)).getD 1 []) = true ∨
      ':' ∉ (([("a: 1;").toList, ("\x7d").toList] : List (List Char)).getD 1 [])) ∧
    (verticalAlignLines [("a: 1;").toList, ("\x7d").toList] 0 true).getD 1 [] =
      ([("a: 1;").toList, ("\x7d").toList] : List (List Char)).getD 1 [] :=
  ⟨by decide, claim_C4 [("a: 1;").toList, ("\x7d").toList] 0 true 1 (by decide)⟩

/-- C5 counterexample: in the two-line all-property document
`[color: red;, background-color: green;]` the group is closed at end of
document, but the last line is NOT included in the furthest-colon
computation (the slice `cssLines.slice(firstProperty, lastProperty)` is
end-exclusive): the resolved column is 5, the first line needs no padding
and the second is left alone, so the output is unchanged even though the
last line's colon sits at offset 16. -/
theorem claim_C5_counterexample :
    (∀ l ∈ ([("color: red;").toList, ("background-color: green;").toList] :
        List (List Char)), isProperty (jsTrim l) = true) ∧
    verticalAlignLines [("color: red;").toList,
        ("background-color: green;").toList] 0 true =
      [("color: red;").toList, ("background-color: green;").toList] ∧
    jsIndexOf ':' (("color: red;").toList) = 5 ∧
    jsIndexOf ':' (("background-color: green;").toList) = 16 := by decide

/-- C5 (amended): for every non-empty document whose lines are all plain
property lines (property shape, not comment-like, no `/*`, no `*/`, no
ignore marker), verticalAlign closes exactly one group at end of document
and equals one pass of the group formatter over the whole document — but
with closing index `length - 1` and the furthest-colon computed over
`take (length - 1)`: the last line is rewritten by the loop yet EXCLUDED
from the column computation, contradicting the claim's assertion that it
participates in the furthest-colon computation (see the counterexample). -/
theorem claim_C5 (L : List (List Char)) (e : Nat) (ac : Bool)
    (hne : L ≠ []) (hall : ∀ l ∈ L, plainPropertyLine l = true) :
    verticalAlignLines L e ac =
      formatGroup L 0 (L.length - 1)
        (findIndexOfFurthestColon (L.take (L.length - 1)) + (e : Int)) ac :=
  allprop_run L e ac hne hall

/-- C5 witness: the amended theorem applied to a three-line all-property
document. -/
theorem claim_C5_witness :
    ([("a: 1;").toList, ("bbb: 2;").toList, ("cc: 3;").toList] :
      List (List Char)) ≠ [] ∧
    (∀ l ∈ ([("a: 1;").toList, ("bbb: 2;").toList, ("cc: 3;").toList] :
      List (List Char)), plainPropertyLine l = true) ∧
    verticalAlignLines [("a: 1;").toList, ("bbb: 2;").toList,
        ("cc: 3;").toList] 0 true =
      formatGroup [("a: 1;").toList, ("bbb: 2;").toList, ("cc: 3;").toList] 0
        (([("a: 1;").toList, ("bbb: 2;").toList, ("cc: 3;").toList] :
          List (List Char)).length - 1)
        (findIndexOfFurthestColon
          (([("a: 1;").toList, ("bbb: 2;").toList, ("cc: 3;").toList] :
            List (List Char)).take
            (([("a: 1;").toList, ("bbb: 2;").toList, ("cc: 3;").toList] :
              List (List Char)).length - 1)) + ((0 : Nat) : Int)) true :=
  ⟨by decide, by decide,
   claim_C5 [("a: 1;").toList, ("bbb: 2;").toList, ("cc: 3;").toList] 0 true
     (by decide) (by decide)⟩

/-- C6 counterexample: the line `a: 1; /* x` opens a block comment mid-line
with no later `*/`, so per the claim everything from it to the end of the
document should be untouched — but the scanner only enters comment mode
when the TRIMMED line STARTS with `/*`, so this line is classified as a
property, a group forms, and the line is padded in the output. -/
theorem claim_C6_counterexample :
    containsSub ['/', '*'] (("a: 1; /* x").toList) = true ∧
    (∀ l ∈ ([("a: 1; /* x").toList, ("bb: 2;").toList, ("\x7d").toList] :
      List (List Char)), containsSub ['*', '/'] l = false) ∧
    (verticalAlignLines [("a: 1; /* x").toList, ("bb: 2;").toList,
      ("\x7d").toList] 0 true).getD 0 [] ≠ ("a: 1; /* x").toList := by decide

/-- C6 (amended): verticalAlign is total (formalised here as a Lean
function; in particular it always yields a document of the same line
count), and when some line k's TRIMMED content starts with `/*`, no line
from k onward contains `*/`, and line k is not skipped by an ignore marker
on the line before it, every line from k to the end of the document is
returned byte-for-byte unmodified.  (The claim as stated is false for a
`/*` opened mid-line: only a trimmed-line-initial `/*` enters comment
mode, as the counterexample shows.) -/
theorem claim_C6 (L : List (List Char)) (e : Nat) (ac : Bool) (k : Nat)
    (hop : startsWithList (jsTrim (L.getD k [])) ['/', '*'] = true)
    (hnostar : ∀ j, k ≤ j → j < L.length →
      containsSub ['*', '/'] (jsTrim (L.getD j [])) = false)
    (hprev : k = 0 ∨ isLineIgnoreLine (L.getD (k - 1) []) = false) :
    (verticalAlignLines L e ac).length = L.length ∧
    ∀ j, k ≤ j → (verticalAlignLines L e ac).getD j [] = L.getD j [] := by
  refine ⟨verticalAlignLines_length L e ac, ?_⟩
  have hnostar2 : ∀ j, k ≤ j →
      containsSub ['*', '/'] (jsTrim (L.getD j [])) = false := by
    intro j hj
    by_cases hjL : j < L.length
    · exact hnostar j hj hjL
    · have hd : L.getD j [] = [] := List.getD_eq_default L [] (by omega)
      rw [hd]
      rfl
  exact unterminated_frame L e ac k hop hnostar2 hprev

/-- C6 witness: the amended theorem applied to a document whose second
line opens an unterminated block comment. -/
theorem claim_C6_witness :
    startsWithList (jsTrim (("/* note").toList)) ['/', '*'] = true ∧
    (verticalAlignLines [("a: 1;").toList, ("/* note").toList,
      ("x: 2;").toList] 0 true).length = 3 ∧
    (verticalAlignLines [("a: 1;").toList, ("/* note").toList,
      ("x: 2;").toList] 0 true).getD 1 [] = ("/* note").toList :=
  ⟨by decide,
   (claim_C6 [("a: 1;").toList, ("/* note").toList, ("x: 2;").toList] 0 true 1
     (by decide) (by intro j h1 h2; have h3 : j < 3 := h2; interval_cases j <;> decide)
     (Or.inr (by decide))).1,
   (claim_C6 [("a: 1;").toList, ("/* note").toList, ("x: 2;").toList] 0 true 1
     (by decide) (by intro j h1 h2; have h3 : j < 3 := h2; interval_cases j <;> decide)
     (Or.inr (by decide))).2 1 (le_refl 1)⟩

theorem propSuffixOk_value_semi (value : List Char)
    (hval : ∀ c ∈ value, isLineTerminator c = false) :
    propSuffixOk (' ' :: (value ++ [';'])) = true := by
  have hshape : ' ' :: (value ++ [';']) = (' ' :: value) ++ [';'] := by simp
  have hg : ((' ' :: value) ++ [';']).getLast? = some ';' :=
    List.getLast?_concat _
  rw [hshape]
  simp only [propSuffixOk, hg, List.dropLast_concat, Bool.and_eq_true]
  constructor
  · decide
  · apply List.all_eq_true.mpr
    intro d hd
    have hdm : d ∈ ' ' :: value := mem_of_mem_dropWhile _ _ _ hd
    rcases List.mem_cons.mp hdm with h | h
    · subst h; decide
    · simp [hval d h]

/-- C7 (confirmed): `insertExtraSpaces` replaces the first colon of the
line with `n` spaces followed by the colon when `alignColon` is true, and
with the colon followed by `n` spaces when false, leaving all other
characters untouched (stated as the exact decomposition around the first
colon); with `n = 0` it returns every line unchanged. -/
theorem claim_C7 :
    (∀ (a b : List Char) (n : Nat), ':' ∉ a →
      insertExtraSpaces (a ++ ':' :: b) n true = a ++ spacesList n ++ ':' :: b ∧
      insertExtraSpaces (a ++ ':' :: b) n false =
        a ++ ':' :: (spacesList n ++ b)) ∧
    (∀ (l : List Char) (ac : Bool), insertExtraSpaces l 0 ac = l) :=
  ⟨fun a b n h =>
    ⟨insertExtraSpaces_before a b n h, insertExtraSpaces_after a b n h⟩,
   insertExtraSpaces_zero⟩

/-- C7 witness: the decompositions at the line `text-align: center;` with
five extra spaces, and the `n = 0` identity on a closing brace. -/
theorem claim_C7_witness :
    ':' ∉ (("text-align").toList) ∧
    insertExtraSpaces (("text-align").toList ++ ':' :: ((" center;").toList))
        5 true =
      ("text-align").toList ++ spacesList 5 ++ ':' :: ((" center;").toList) ∧
    insertExtraSpaces (("text-align").toList ++ ':' :: ((" center;").toList))
        5 false =
      ("text-align").toList ++ ':' :: (spacesList 5 ++ (" center;").toList) ∧
    insertExtraSpaces (("\x7d").toList) 0 true = ("\x7d").toList :=
  ⟨by decide,
   (claim_C7.1 (("text-align").toList) ((" center;").toList) 5 (by decide)).1,
   (claim_C7.1 (("text-align").toList) ((" center;").toList) 5 (by decide)).2,
   claim_C7.2 (("\x7d").toList) true⟩

/-- C8 (confirmed): `findIndexOfFurthestColon` returns 0 on the empty
list; on every non-empty list it returns an upper bound of the first-colon
indices of the raw lines that is attained by some line (i.e. their
maximum); and on the spec's example list it returns 14. -/
theorem claim_C8 :
    findIndexOfFurthestColon [] = 0 ∧
    (∀ (ls : List (List Char)), ls ≠ [] →
      (∀ l ∈ ls, jsIndexOf ':' l ≤ findIndexOfFurthestColon ls) ∧
      ∃ l ∈ ls, findIndexOfFurthestColon ls = jsIndexOf ':' l) ∧
    findIndexOfFurthestColon [("    color: #333;").toList,
      ("    display: block;").toList,
      ("    text-align: center;").toList] = 14 := by
  refine ⟨rfl, ?_, by decide⟩
  intro ls hne
  exact ⟨fun l hl => findIndexOfFurthestColon_ge ls l hl,
         findIndexOfFurthestColon_attained ls hne⟩

/-- C8 witness: the maximum characterisation instantiated on a concrete
two-line list. -/
theorem claim_C8_witness :
    ([("a: 1;").toList, ("bbb: 2;").toList] : List (List Char)) ≠ [] ∧
    (∀ l ∈ ([("a: 1;").toList, ("bbb: 2;").toList] : List (List Char)),
      jsIndexOf ':' l ≤
        findIndexOfFurthestColon [("a: 1;").toList, ("bbb: 2;").toList]) :=
  ⟨by decide,
   (claim_C8.2.1 [("a: 1;").toList, ("bbb: 2;").toList] (by decide)).1⟩

/-- C9 (confirmed): `isProperty` accepts every trimmed line of declaration
shape `key: value;` (key of letters and hyphens, value free of line
terminators), including the spec's optional-semicolon variant on a
concrete example; it rejects the empty string; and it rejects every line
whose last character is `,` or an opening brace, in particular `a:hover,`
and `a:hover` followed by a space and an opening brace. -/
theorem claim_C9 :
    (∀ (key value : List Char), key ≠ [] →
      (∀ c ∈ key, c.isAlpha = true ∨ c = '-') →
      (∀ c ∈ value, isLineTerminator c = false) →
      isProperty (key ++ ':' :: ' ' :: (value ++ [';'])) = true) ∧
    isProperty [] = false ∧
    (∀ (l : List Char) (c : Char), l.getLast? = some c →
      (c = ',' ∨ c = '{') → isProperty l = false) ∧
    isProperty (("color: red").toList) = true ∧
    isProperty (("a:hover,").toList) = false ∧
    isProperty (("a:hover \x7b").toList) = false := by
  refine ⟨?_, rfl, ?_, by decide, by decide, by decide⟩
  · intro key value hk hkey hval
    have hkc : ':' ∉ key := by
      intro hc
      rcases hkey ':' hc with h | h
      · exact absurd h (by decide)
      · exact absurd h (by decide)
    rw [isProperty_append_no_colon key _ hkc]
    exact isProperty_colon_shape _ (propSuffixOk_value_semi value hval)
  · intro l c hl hc
    refine isProperty_getLast l c hl ?_
    rcases hc with h | h
    · exact Or.inl h
    · exact Or.inr (Or.inr h)

/-- C9 witness: the declaration-shape acceptance applied to
`color: red;`, and the rejection of the trailing-comma selector. -/
theorem claim_C9_witness :
    (("color").toList ≠ [] ∧
      isProperty (("color").toList ++ ':' :: ' ' ::
        ((("red").toList) ++ [';'])) = true) ∧
    isProperty (("a:hover,").toList) = false :=
  ⟨⟨by decide,
    claim_C9.1 (("color").toList) (("red").toList) (by decide) (by decide)
      (by decide)⟩,
   claim_C9.2.2.2.2.1⟩

/-- C10 (confirmed): a line with no colon is returned unchanged by
`insertExtraSpaces` for every space count and both alignment sides, and
likewise by the rewrite-loop body `alignLine` for every target column:
colon-free lines such as a closing brace are never altered even when the
rewrite loop visits them. -/
theorem claim_C10 (l : List Char) (n : Nat) (ac : Bool) (F : Int)
    (h : ':' ∉ l) :
    insertExtraSpaces l n ac = l ∧ alignLine F ac l = l :=
  ⟨insertExtraSpaces_of_no_colon l n ac h, alignLine_of_no_colon F ac l h⟩

/-- C10 witness: the theorem applied to a closing-brace line with four
extra spaces and target column 10. -/
theorem claim_C10_witness :
    ':' ∉ (("\x7d").toList) ∧
    insertExtraSpaces (("\x7d").toList) 4 true = ("\x7d").toList ∧
    alignLine 10 true (("\x7d").toList) = ("\x7d").toList :=
  ⟨by decide, (claim_C10 (("\x7d").toList) 4 true 10 (by decide)).1,
   (claim_C10 (("\x7d").toList) 4 true 10 (by decide)).2⟩
